import Mathlib

/-!
# gorollingfile: a size-triggered rolling log file

A shallow embedding of `rollinglog.go` (package `gorollinglog`) together with a
small model of the operating-system calls the package makes.  The program's
functions keep their Go names; the file table, open handles and the calls of
the packages `os`, `io`, `strings`, `fmt` and `path/filepath` are modelled by
the definitions of the first sections.
-/

namespace gorollinglog

/-! ## The file table and its failures -/

/-- One byte of file content. -/
abbrev Byte := Fin 256

/-- Error numbers whose cause lies outside the file table: permissions, a
path element that is not a directory, a full disk, a read-only file system. -/
inductive EnvErrno
  | EACCES
  | ENOTDIR
  | ENOSPC
  | EROFS
deriving DecidableEq, Repr

/-- Error numbers a file-system call can report.  "Does not exist" and "is a
directory" are decided by the file table alone. -/
inductive Errno
  | ENOENT
  | EISDIR
  | EBADF
  | env (e : EnvErrno)
deriving DecidableEq, Repr

/-- Go `error` values that reach the caller of the package. -/
inductive GoError
  /-- An error of a file-system call (`*fs.PathError` around an errno). -/
  | sys (e : Errno)
  /-- The value `os.ErrClosed`: use of a handle after `Close`. -/
  | closed
  /-- The `fmt.Errorf("unrecognized mode ...")` of `NewRollingFile`. -/
  | badMode (mode : Int)
deriving DecidableEq, Repr

/-- Run-time panics of the Go program. -/
inductive Panic
  /-- Indexing a slice past its end (`parts[1]`). -/
  | indexOutOfRange
  /-- Calling a method on a nil `fs.FileInfo` (`info.IsDir()`). -/
  | nilDereference
deriving DecidableEq, Repr

/-- What a path names: a regular file with its bytes, or a directory. -/
inductive Node
  | file (data : List Byte)
  | dir (size : Nat)
deriving DecidableEq, Repr

/-- The file-system calls the package makes. -/
inductive Call
  | stat (path : String)
  | openRead (path : String)
  | create (path : String)
  | openAppend (path : String)
  | write (path : String) (len : Nat)
  | copy (src dest : String)
  | close (path : String)
deriving DecidableEq, Repr

/-- A failure imposed by the environment on one call (permissions, a missing
parent directory, a full disk): the errno reported and, for a call that moves
bytes, how many bytes went through before the failure. -/
structure Fault where
  errno : EnvErrno
  done : Nat
deriving DecidableEq, Repr

/-- The state of the world outside the program: the file table, the failures
the environment imposes (they may depend on the calls made so far), and the
calls made so far, oldest first. -/
structure World where
  node : String → Option Node
  fault : List Call → Call → Option Fault
  trace : List Call

/-- Record a call. -/
def World.log (w : World) (c : Call) : World :=
  { w with trace := w.trace ++ [c] }

/-- The failure the environment imposes on the next call, if any. -/
def World.failure (w : World) (c : Call) : Option Fault :=
  w.fault w.trace c

/-- Bind a path to a node. -/
def World.set (w : World) (p : String) (n : Node) : World :=
  { w with node := fun q => if q = p then some n else w.node q }

/-- The bytes of the regular file at a path, if there is one. -/
def World.content (w : World) (p : String) : Option (List Byte) :=
  match w.node p with
  | some (.file d) => some d
  | _ => none

/-- Whether a path names a regular file. -/
def World.isFile (w : World) (p : String) : Bool :=
  (w.content p).isSome

/-- The result of `os.Stat`, reduced to what the package reads from it. -/
structure FileInfo where
  size : Nat
  isDir : Bool
deriving DecidableEq, Repr

/-- An `*os.File`: the path it was opened at and whether it has been closed.
The writer is the only writer of its file, so the handle writes at the end of
the file its name denotes. -/
structure File where
  name : String
  closed : Bool
deriving DecidableEq, Repr

/-- Call `os.Stat`. -/
def osStat (p : String) (w : World) : Except Errno FileInfo × World :=
  let w1 := w.log (.stat p)
  match w.failure (.stat p) with
  | some flt => (.error (.env flt.errno), w1)
  | none =>
    match w.node p with
    | none => (.error .ENOENT, w1)
    | some (.file d) => (.ok ⟨d.length, false⟩, w1)
    | some (.dir s) => (.ok ⟨s, true⟩, w1)

/-- Call `os.Open` (read only); a directory can be opened, reading it fails. -/
def osOpen (p : String) (w : World) : Except Errno File × World :=
  let w1 := w.log (.openRead p)
  match w.failure (.openRead p) with
  | some flt => (.error (.env flt.errno), w1)
  | none =>
    match w.node p with
    | none => (.error .ENOENT, w1)
    | some _ => (.ok ⟨p, false⟩, w1)

/-- Call `os.Create`: create the file or truncate the existing one. -/
def osCreate (p : String) (w : World) : Except Errno File × World :=
  let w1 := w.log (.create p)
  match w.failure (.create p) with
  | some flt => (.error (.env flt.errno), w1)
  | none =>
    match w.node p with
    | some (.dir _) => (.error .EISDIR, w1)
    | _ => (.ok ⟨p, false⟩, w1.set p (.file []))

/-- Call `os.OpenFile(path, O_APPEND|O_CREATE|O_WRONLY, 0644)`: create the file
when absent, keep its bytes otherwise. -/
def osOpenFile (p : String) (w : World) : Except Errno File × World :=
  let w1 := w.log (.openAppend p)
  match w.failure (.openAppend p) with
  | some flt => (.error (.env flt.errno), w1)
  | none =>
    match w.node p with
    | some (.dir _) => (.error .EISDIR, w1)
    | some (.file _) => (.ok ⟨p, false⟩, w1)
    | none => (.ok ⟨p, false⟩, w1.set p (.file []))

/-- Method `(*os.File).Close`: the second close of a handle reports
`os.ErrClosed`. -/
def File.Close (h : File) (w : World) : Option GoError × File × World :=
  if h.closed then (some .closed, h, w)
  else (none, { h with closed := true }, w.log (.close h.name))

/-- Method `(*os.File).Write`: the bytes accepted and the error.  A closed
handle accepts nothing; so does a handle whose path no longer names a regular
file (the model has no unlinked open files); a failure imposed by the
environment lets a strict leading part of the data through; otherwise all of
the data is appended. -/
def File.Write (h : File) (data : List Byte) (w : World) :
    (Nat × Option GoError) × World :=
  if h.closed then ((0, some .closed), w)
  else
    let w1 := w.log (.write h.name data.length)
    match w.node h.name with
    | some (.file old) =>
      match w.failure (.write h.name data.length) with
      | some flt =>
        let k := min flt.done (data.length - 1)
        ((k, some (.sys (.env flt.errno))), w1.set h.name (.file (old ++ data.take k)))
      | none => ((data.length, none), w1.set h.name (.file (old ++ data)))
    | _ => ((0, some (.sys .EBADF)), w1)

/-- Call `io.Copy(destf, sf)` on two freshly opened handles: the bytes of the
source replace those of the destination; a failure leaves a leading part. -/
def ioCopy (dest src : String) (w : World) : Option GoError × World :=
  let w1 := w.log (.copy src dest)
  match w.node src with
  | some (.file d) =>
    match w.failure (.copy src dest) with
    | some flt => (some (.sys (.env flt.errno)), w1.set dest (.file (d.take flt.done)))
    | none => (none, w1.set dest (.file d))
  | some (.dir _) => (some (.sys .EISDIR), w1)
  | none => (some (.sys .EBADF), w1)

/-! ## Strings and paths -/

/-- Cut a list of characters at every occurrence of a separator. -/
def splitChars (sep : Char) : List Char → List (List Char)
  | [] => [[]]
  | c :: cs =>
    if c = sep then [] :: splitChars sep cs
    else
      match splitChars sep cs with
      | [] => [[c]]
      | h :: t => (c :: h) :: t

/-- Call `strings.Split(s, ".")`. -/
def stringsSplitDot (s : String) : List String :=
  (splitChars '.' s.data).map String.mk

/-- One path element pushed on the elements kept so far (newest first), as
`filepath.Clean` does: empty and `.` elements vanish, `..` removes the element
before it, is kept at the start of a relative path and dropped at the root. -/
def cleanStep (rooted : Bool) (stack : List (List Char)) (elem : List Char) :
    List (List Char) :=
  if elem = [] then stack
  else if elem = ['.'] then stack
  else if elem = ['.', '.'] then
    match stack with
    | [] => if rooted then [] else [elem]
    | top :: rest => if top = ['.', '.'] then elem :: top :: rest else rest
  else elem :: stack

/-- Join path elements with `/`. -/
def joinSlash : List (List Char) → List Char
  | [] => []
  | [e] => e
  | e :: es => e ++ '/' :: joinSlash es

/-- The characters `filepath.Clean` (Unix) returns for a path: the shortest
path naming the same place by purely lexical processing; `.` for an empty
result. -/
def cleanChars (path : List Char) : List Char :=
  if path = [] then ['.']
  else
    let rooted : Bool := path.head? == some '/'
    let stack := (splitChars '/' path).foldl (cleanStep rooted) []
    let body := joinSlash stack.reverse
    if rooted then '/' :: body
    else if body = [] then ['.']
    else body

/-- Call `filepath.Clean` (Unix). -/
def filepathClean (path : String) : String :=
  String.mk (cleanChars path.data)

/-- Call `filepath.Join(dir, name)` (Unix): leading empty elements are
ignored, the rest is joined with `/` and cleaned. -/
def filepathJoin (dir name : String) : String :=
  if dir ≠ "" then filepathClean (dir ++ "/" ++ name)
  else if name ≠ "" then filepathClean name
  else ""

/-- The value of `fmt.Sprintf("%s_bkp_%d.%s", fname, i, ext)` for `i ≥ 0`. -/
def backupName (fname : String) (i : Nat) (ext : String) : String :=
  fname ++ "_bkp_" ++ toString i ++ "." ++ ext

/-- A Go `int` (64 bits) after an operation that may wrap around. -/
def wrapInt (n : Int) : Int :=
  (n + 2 ^ 63) % 2 ^ 64 - 2 ^ 63

/-! ## The package -/

/-- The struct `RollingLogFile`. -/
structure RollingLogFile where
  LogDir : String
  FileName : String
  Path : String
  maxSizeBytes : Int
  backupCount : Int
  fileHandle : File
deriving DecidableEq, Repr

/-- Function `getFileSizeBytes`. -/
def getFileSizeBytes (path : String) (w : World) : (Int × Option GoError) × World :=
  match osStat path w with
  | (.error e, w1) => ((0, some (.sys e)), w1)
  | (.ok finfo, w1) => ((finfo.size, none), w1)

/-- Function `fileExists`: only the error "does not exist" is recognised; any
other error of `os.Stat` leaves `info` nil and `info.IsDir()` panics. -/
def fileExists (filename : String) (w : World) : Except Panic (Bool × World) :=
  match osStat filename w with
  | (.error e, w1) => if e = .ENOENT then .ok (false, w1) else .error .nilDereference
  | (.ok info, w1) => .ok (!info.isDir, w1)

/-- Function `copyFile`; both handles are closed on return (`defer`). -/
def copyFile (src dest : String) (w : World) : Option GoError × World :=
  match osOpen src w with
  | (.error e, w1) => (some (.sys e), w1)
  | (.ok _, w1) =>
    match osCreate dest w1 with
    | (.error e, w2) => (some (.sys e), w2.log (.close src))
    | (.ok _, w2) =>
      match ioCopy dest src w2 with
      | (some e, w3) => (some e, (w3.log (.close dest)).log (.close src))
      | (none, w3) => (none, (w3.log (.close dest)).log (.close src))

/-- Function `NewRollingFile`.  The conversion `megabytesToBytes` works on
floating-point numbers and is taken as given. -/
def NewRollingFile {F : Type} (megabytesToBytes : F → Int) (dir name : String)
    (mode : Int) (maxSizeMb : F) (backups : Int) (w : World) :
    Except GoError RollingLogFile × World :=
  let path := filepathJoin dir name
  let opened : Option (Except Errno File × World) :=
    if mode = ('w'.toNat : Int) then some (osCreate path w)
    else if mode = ('a'.toNat : Int) then some (osOpenFile path w)
    else none
  match opened with
  | none => (.error (.badMode mode), w)
  | some (.error e, w1) => (.error (.sys e), w1)
  | some (.ok fhandle, w1) =>
    (.ok
      { LogDir := dir
        FileName := name
        Path := path
        maxSizeBytes := megabytesToBytes maxSizeMb
        backupCount := backups
        fileHandle := fhandle }, w1)

/-- The cascade loop of `rotate`, `for i := ...; i > 0; i--`, entered with the
loop variable at the given value. -/
def cascade (f : RollingLogFile) (fname ext : String) :
    Nat → World → Except Panic (Option GoError × World)
  | 0, w => .ok (none, w)
  | i + 1, w =>
    let bkpName := backupName fname (i + 1) ext
    let backupPath := filepathJoin f.LogDir bkpName
    let newerBkpName := if i = 0 then f.FileName else backupName fname i ext
    let newerBackupPath := filepathJoin f.LogDir newerBkpName
    match fileExists newerBackupPath w with
    | .error p => .error p
    | .ok (true, w1) =>
      match copyFile newerBackupPath backupPath w1 with
      | (some err, w2) => .ok (some err, w2)
      | (none, w2) => cascade f fname ext i w2
    | .ok (false, w1) => cascade f fname ext i w1

/-- Method `rotate`. -/
def rotate (f : RollingLogFile) (w : World) :
    Except Panic (Option GoError × RollingLogFile × World) :=
  match f.fileHandle.Close w with
  | (_, h, w0) =>
    let f0 := { f with fileHandle := h }
    match stringsSplitDot f.FileName with
    | fname :: ext :: _ =>
      let fstBkpName := backupName fname 1 ext
      let fstBkpPath := filepathJoin f.LogDir fstBkpName
      match fileExists fstBkpPath w0 with
      | .error p => .error p
      | .ok (fstExists, w1) =>
        let copied : Except Panic (Option GoError × World) :=
          if !fstExists then .ok (copyFile f.Path fstBkpPath w1)
          else cascade f fname ext (wrapInt (f.backupCount - 1)).toNat w1
        match copied with
        | .error p => .error p
        | .ok (some err, w2) => .ok (some err, f0, w2)
        | .ok (none, w2) =>
          match osCreate f.Path w2 with
          | (.error e, w3) => .ok (some (.sys e), f0, w3)
          | (.ok newHandle, w3) => .ok (none, { f0 with fileHandle := newHandle }, w3)
    | _ => .error .indexOutOfRange

/-- Method `Close`. -/
def Close (f : RollingLogFile) (w : World) : Option GoError × RollingLogFile × World :=
  match f.fileHandle.Close w with
  | (err, h, w1) => (err, { f with fileHandle := h }, w1)

/-- Method `Write`. -/
def Write (f : RollingLogFile) (data : List Byte) (w : World) :
    Except Panic ((Nat × Option GoError) × RollingLogFile × World) :=
  match f.fileHandle.Write data w with
  | ((i, some err), w1) => .ok ((i, some err), f, w1)
  | ((i, none), w1) =>
    match getFileSizeBytes f.Path w1 with
    | ((_, some err), w2) => .ok ((0, some err), f, w2)
    | ((size, none), w2) =>
      if size ≥ f.maxSizeBytes then
        match rotate f w2 with
        | .error p => .error p
        | .ok (some err, f1, w3) => .ok ((0, some err), f1, w3)
        | .ok (none, f1, w3) => .ok ((i, none), f1, w3)
      else .ok ((i, none), f, w2)

/-! ## Vocabulary of the claims -/

/-- The stem `parts[0]` that `rotate` takes from a file name. -/
def stem (name : String) : String :=
  (stringsSplitDot name).getD 0 ""

/-- The extension `parts[1]` that `rotate` takes from a file name. -/
def extension (name : String) : String :=
  (stringsSplitDot name).getD 1 ""

/-- The path of backup `n` of a writer: `stem_bkp_n.extension` in its directory. -/
def RollingLogFile.backupPath (f : RollingLogFile) (n : Nat) : String :=
  filepathJoin f.LogDir (backupName (stem f.FileName) n (extension f.FileName))

/-- The file the cascade copies into backup `i`: the active file for `i = 1`,
backup `i - 1` otherwise. -/
def RollingLogFile.sourcePath (f : RollingLogFile) (i : Nat) : String :=
  if i = 1 then f.Path else f.backupPath (i - 1)

/-- A file name with exactly one `.`. -/
def OneDot (name : String) : Prop :=
  name.data.count '.' = 1

/-- The invariant of a writer made by `NewRollingFile`: the path is the joined
directory and name, the handle is a handle of that path, and the backup count
is a Go `int` whose predecessor does not wrap around (any 64-bit integer but
the least one). -/
def RollingLogFile.WellFormed (f : RollingLogFile) : Prop :=
  f.Path = filepathJoin f.LogDir f.FileName ∧ f.fileHandle.name = f.Path ∧
    -(2 : Int) ^ 63 < f.backupCount ∧ f.backupCount < (2 : Int) ^ 63

/-- Whether appending the data brings the active file to the size limit, which
is when `Write` rotates. -/
def crosses (f : RollingLogFile) (data : List Byte) (w : World) : Bool :=
  match w.content f.Path with
  | some old => decide (f.maxSizeBytes ≤ ((old ++ data).length : Int))
  | none => false

/-- A sequence of writes, each of which returns without error: the final
writer and world and the number of rotations, or nothing when a write fails. -/
def writeAll (f : RollingLogFile) (w : World) :
    List (List Byte) → Option (RollingLogFile × World × Nat)
  | [] => some (f, w, 0)
  | data :: rest =>
    match Write f data w with
    | .ok ((_, none), f1, w1) =>
      match writeAll f1 w1 rest with
      | some (f2, w2, k) => some (f2, w2, k + (if crosses f data w then 1 else 0))
      | none => none
    | _ => none

/-- The writer and world of a result of `Write`, or the given ones after a panic. -/
def stateOf (r : Except Panic ((Nat × Option GoError) × RollingLogFile × World))
    (f : RollingLogFile) (w : World) : RollingLogFile × World :=
  match r with
  | .ok (_, f1, w1) => (f1, w1)
  | .error _ => (f, w)

/-- The writer and world after a rotation, or the given ones after a panic. -/
def rotated (f : RollingLogFile) (w : World) : RollingLogFile × World :=
  match rotate f w with
  | .ok (_, f1, w1) => (f1, w1)
  | .error _ => (f, w)

/-- The values `Write` returns to its caller, or nothing after a panic. -/
def returned (r : Except Panic ((Nat × Option GoError) × RollingLogFile × World)) :
    Option (Nat × Option GoError) :=
  match r with
  | .ok (v, _, _) => some v
  | .error _ => none

/-! ## Auxiliary functions of the proofs -/

/-- The number a string of decimal digits stands for. -/
def decimalValue (ds : List Char) : Nat :=
  ds.foldl (fun acc c => 10 * acc + (c.toNat - 48)) 0

/-- Path elements, each followed by a `/`. -/
def slashAfter : List (List Char) → List Char
  | [] => []
  | e :: es => e ++ '/' :: slashAfter es

/-- Path elements, each preceded by a `/`. -/
def slashBefore : List (List Char) → List Char
  | [] => []
  | e :: es => '/' :: e ++ slashBefore es

/-- The text `filepath.Join` hands to `filepath.Clean` for a non-empty name. -/
def joinedText (dir : String) (name : List Char) : List Char :=
  if dir = "" then name else dir.data ++ '/' :: name

/-! ## Concrete states -/

/-- An environment that imposes no failure. -/
def calm : List Call → Call → Option Fault :=
  fun _ _ => none

/-- A world with an empty file table and no failures. -/
def emptyWorld : World :=
  { node := fun _ => none, fault := calm, trace := [] }

/-- A block of equal bytes. -/
def block (n : Nat) (b : Byte) : List Byte :=
  List.replicate n b

/-- A stand-in for `megabytesToBytes` in the examples, where the size limit
is given in bytes. -/
def bytesOf (n : Int) : Int :=
  n

/-- The writer `NewRollingFile("logs", "app.log", mode w)` with a limit of 100
bytes, as it stands after construction. -/
def appLog (backups : Int) : RollingLogFile :=
  { LogDir := "logs"
    FileName := "app.log"
    Path := "logs/app.log"
    maxSizeBytes := 100
    backupCount := backups
    fileHandle := ⟨"logs/app.log", false⟩ }

/-- The world right after that construction: an empty active file. -/
def freshWorld : World :=
  emptyWorld.set "logs/app.log" (.file [])

/-- The four writes of the scenario of the specification: 60, 50, 60 and 50 bytes. -/
def scenario : List (List Byte) :=
  [block 60 1, block 50 2, block 60 3, block 50 4]

/-- The world after the first write of the scenario: 60 bytes in the active
file and no backup. -/
def halfFull : World :=
  emptyWorld.set "logs/app.log" (.file (block 60 1))

/-- A world whose disk fills up during a write of 50 bytes to the active file,
after 10 of them. -/
def fullDisk : World :=
  { node := fun q => if q = "logs/app.log" then some (.file (block 60 1)) else none
    fault := fun _ c => if c = .write "logs/app.log" 50 then some ⟨.ENOSPC, 10⟩ else none
    trace := [] }

/-- A world with an empty active file whose directory can no longer be
searched: `os.Stat` of the active file is refused, writes through the open
handle still go through. -/
def statDenied : World :=
  { node := fun q => if q = "logs/app.log" then some (.file []) else none
    fault := fun _ c => if c = .stat "logs/app.log" then some ⟨.EACCES, 0⟩ else none
    trace := [] }

/-- A world in which the path of backup 1 is taken by a directory. -/
def blockedWorld : World :=
  { node := fun q =>
      if q = "logs/app.log" then some (.file (block 60 1))
      else if q = "logs/app_bkp_1.log" then some (.dir 4096)
      else none
    fault := calm
    trace := [] }

/-- A world after one rotation and 110 more bytes: backup 1 holds the first
generation, the active file the second. -/
def steadyWorld : World :=
  { node := fun q =>
      if q = "logs/app.log" then some (.file (block 60 3 ++ block 50 4))
      else if q = "logs/app_bkp_1.log" then some (.file (block 60 1 ++ block 50 2))
      else none
    fault := calm
    trace := [] }

/-- The writer `NewRollingFile("logs", "applog", mode w)` with a limit of 100
bytes: a name without a dot. -/
def dotless : RollingLogFile :=
  { LogDir := "logs"
    FileName := "applog"
    Path := "logs/applog"
    maxSizeBytes := 100
    backupCount := 2
    fileHandle := ⟨"logs/applog", false⟩ }

/-! ## The file table: what each call does -/

theorem log_node (w : World) (c : Call) : (w.log c).node = w.node := rfl
theorem log_fault (w : World) (c : Call) : (w.log c).fault = w.fault := rfl
theorem log_trace (w : World) (c : Call) : (w.log c).trace = w.trace ++ [c] := rfl
theorem set_node (w : World) (p : String) (n : Node) (q : String) :
    (w.set p n).node q = if q = p then some n else w.node q := rfl
theorem set_fault (w : World) (p : String) (n : Node) : (w.set p n).fault = w.fault := rfl
theorem set_trace (w : World) (p : String) (n : Node) : (w.set p n).trace = w.trace := rfl

theorem content_eq_some {w : World} {p : String} {d : List Byte} :
    w.content p = some d ↔ w.node p = some (.file d) := by
  unfold World.content
  split <;> simp_all

theorem isFile_eq_false {w : World} {p : String} :
    w.isFile p = false ↔ ∀ d, w.node p ≠ some (.file d) := by
  unfold World.isFile World.content
  split <;> simp_all

theorem isFile_eq_true {w : World} {p : String} :
    w.isFile p = true ↔ ∃ d, w.node p = some (.file d) := by
  unfold World.isFile World.content
  split <;> simp_all

theorem content_congr {w w1 : World} {p : String} (h : w1.node p = w.node p) :
    w1.content p = w.content p := by
  unfold World.content; rw [h]

theorem isFile_congr {w w1 : World} {p : String} (h : w1.node p = w.node p) :
    w1.isFile p = w.isFile p := by
  unfold World.isFile; rw [content_congr h]

/-- What a successful `(*os.File).Write` did. -/
theorem File_Write_ok {h : File} {data : List Byte} {w w1 : World} {n : Nat}
    (hw : h.Write data w = ((n, none), w1)) :
    h.closed = false ∧ n = data.length ∧ ∃ old, w.node h.name = some (.file old) ∧
      w1 = (w.log (.write h.name data.length)).set h.name (.file (old ++ data)) := by
  unfold File.Write at hw
  split at hw
  · simp at hw
  · rename_i hc
    split at hw
    · rename_i old hn
      split at hw
      · simp at hw
      · simp only [Prod.mk.injEq, and_true] at hw
        exact ⟨by simpa using hc, hw.1.symm, old, hn, hw.2.symm⟩
    · simp at hw

/-- What a failed `(*os.File).Write` left behind. -/
theorem File_Write_error {h : File} {data : List Byte} {w w1 : World} {n : Nat} {e : GoError}
    (hw : h.Write data w = ((n, some e), w1)) :
    (∀ p, p ≠ h.name → w1.node p = w.node p) ∧ w1.fault = w.fault ∧
      (w1.trace = w.trace ∨ w1.trace = w.trace ++ [.write h.name data.length]) ∧
      (data = [] → n = 0) ∧ (data ≠ [] → n < data.length) := by
  unfold File.Write at hw
  split at hw
  · simp only [Prod.mk.injEq] at hw
    obtain ⟨⟨hn, -⟩, rfl⟩ := hw
    subst hn
    refine ⟨fun _ _ => rfl, rfl, Or.inl rfl, fun _ => rfl, fun hd => List.length_pos.mpr hd⟩
  · split at hw
    · split at hw
      · simp only [Prod.mk.injEq] at hw
        obtain ⟨⟨hn, -⟩, rfl⟩ := hw
        subst hn
        refine ⟨fun p hp => ?_, rfl, Or.inr rfl, fun hd => ?_, fun hd => ?_⟩
        · simp [set_node, hp, log_node]
        · simp [hd]
        · have := List.length_pos.mpr hd
          omega
      · simp at hw
    · simp only [Prod.mk.injEq] at hw
      obtain ⟨⟨hn, -⟩, rfl⟩ := hw
      subst hn
      refine ⟨fun _ _ => rfl, rfl, Or.inr rfl, fun _ => rfl, fun hd => List.length_pos.mpr hd⟩

theorem osStat_world (p : String) (w : World) : (osStat p w).2 = w.log (.stat p) := by
  unfold osStat
  split
  · rfl
  · split <;> rfl

/-- The size `getFileSizeBytes` reports is the length of the file. -/
theorem getFileSizeBytes_ok {p : String} {w w2 : World} {size : Int}
    (h : getFileSizeBytes p w = ((size, none), w2)) :
    w2 = w.log (.stat p) ∧ ∀ d, w.node p = some (.file d) → size = (d.length : Int) := by
  unfold getFileSizeBytes at h
  have hw := osStat_world p w
  split at h
  · simp at h
  · rename_i finfo w1 heq
    simp only [Prod.mk.injEq, and_true] at h
    rw [heq] at hw
    simp only at hw
    refine ⟨by rw [← h.2, hw], fun d hd => ?_⟩
    unfold osStat at heq
    rw [hd] at heq
    split at heq
    · simp at heq
    · simp only [Prod.mk.injEq, Except.ok.injEq] at heq
      rw [← h.1, ← heq.1]

theorem getFileSizeBytes_world (p : String) (w : World) :
    (getFileSizeBytes p w).2 = w.log (.stat p) := by
  unfold getFileSizeBytes
  have hw := osStat_world p w
  split <;> rename_i heq <;> rw [heq] at hw <;> exact hw

/-- When `fileExists` returns, it says whether the path is a regular file, and
it changes nothing but the record of calls. -/
theorem fileExists_ok {p : String} {w w1 : World} {b : Bool}
    (h : fileExists p w = .ok (b, w1)) :
    b = w.isFile p ∧ w1 = w.log (.stat p) := by
  unfold fileExists at h
  have hw := osStat_world p w
  split at h
  · rename_i e w0 heq
    split at h
    · rename_i he
      simp only [Except.ok.injEq, Prod.mk.injEq] at h
      rw [heq] at hw
      simp only at hw
      refine ⟨?_, by rw [← h.2, hw]⟩
      rw [← h.1]
      symm
      rw [isFile_eq_false]
      intro d hd
      unfold osStat at heq
      rw [hd] at heq
      subst he
      split at heq <;> simp at heq
    · simp at h
  · rename_i info w0 heq
    simp only [Except.ok.injEq, Prod.mk.injEq] at h
    rw [heq] at hw
    simp only at hw
    refine ⟨?_, by rw [← h.2, hw]⟩
    rw [← h.1]
    unfold osStat at heq
    split at heq
    · simp at heq
    · split at heq
      · simp at heq
      · rename_i d hn
        simp only [Prod.mk.injEq, Except.ok.injEq] at heq
        rw [← heq.1]
        symm
        simpa using isFile_eq_true.mpr ⟨d, hn⟩
      · rename_i s hn
        simp only [Prod.mk.injEq, Except.ok.injEq] at heq
        rw [← heq.1]
        symm
        simp only [Bool.not_true]
        rw [isFile_eq_false]
        intro d hd
        rw [hn] at hd
        simp at hd

/-- A successful `os.Create` leaves an empty regular file at the path. -/
theorem osCreate_ok {p : String} {w w1 : World} {h : File}
    (hc : osCreate p w = (.ok h, w1)) :
    h = ⟨p, false⟩ ∧ w1 = (w.log (.create p)).set p (.file []) := by
  unfold osCreate at hc
  split at hc
  · simp at hc
  · split at hc
    · simp at hc
    · simp only [Prod.mk.injEq, Except.ok.injEq] at hc
      exact ⟨hc.1.symm, hc.2.symm⟩

/-- Whatever `os.Create` returns, it touches no other path. -/
theorem osCreate_frame {p : String} {w w1 : World} {r : Except Errno File}
    (hc : osCreate p w = (r, w1)) :
    (∀ q, q ≠ p → w1.node q = w.node q) ∧ w1.fault = w.fault := by
  unfold osCreate at hc
  split at hc
  · simp only [Prod.mk.injEq] at hc
    rw [← hc.2]
    exact ⟨fun _ _ => rfl, rfl⟩
  · split at hc
    · simp only [Prod.mk.injEq] at hc
      rw [← hc.2]
      exact ⟨fun _ _ => rfl, rfl⟩
    · simp only [Prod.mk.injEq] at hc
      rw [← hc.2]
      exact ⟨fun q hq => by simp [set_node, hq, log_node], rfl⟩

/-- A successful `copyFile` between two different paths gives the destination
the bytes of the source, which is a regular file. -/
theorem copyFile_ok {src dest : String} {w w1 : World}
    (h : copyFile src dest w = (none, w1)) (hne : src ≠ dest) :
    ∃ d, w.node src = some (.file d) ∧ w1.fault = w.fault ∧
      ∀ q, w1.node q = if q = dest then some (.file d) else w.node q := by
  unfold copyFile at h
  split at h
  · simp at h
  · rename_i hs wa hopen
    have hwa : wa.node = w.node ∧ wa.fault = w.fault := by
      unfold osOpen at hopen
      split at hopen
      · simp at hopen
      · split at hopen
        · simp at hopen
        · simp only [Prod.mk.injEq] at hopen
          rw [← hopen.2]
          exact ⟨rfl, rfl⟩
    split at h
    · simp at h
    · rename_i hd wb hcreate
      obtain ⟨-, hwb⟩ := osCreate_ok hcreate
      split at h
      · simp at h
      · rename_i wc hcopy
        simp only [Prod.mk.injEq, true_and] at h
        unfold ioCopy at hcopy
        have hsrc : wb.node src = w.node src := by
          rw [hwb, set_node, if_neg hne, log_node, hwa.1]
        rw [hsrc] at hcopy
        split at hcopy
        · rename_i d hn
          split at hcopy
          · simp at hcopy
          · simp only [Prod.mk.injEq, true_and] at hcopy
            refine ⟨d, hn, ?_, fun q => ?_⟩
            · rw [← h, ← hcopy, hwb]
              exact hwa.2
            · rw [← h, ← hcopy, hwb]
              simp only [log_node, set_node]
              split
              · rfl
              · rw [hwa.1]
        · simp at hcopy
        · simp at hcopy

/-- Whatever `copyFile` returns, it touches no path but the destination. -/
theorem copyFile_frame {src dest : String} {w w1 : World} {r : Option GoError}
    (h : copyFile src dest w = (r, w1)) :
    (∀ q, q ≠ dest → w1.node q = w.node q) ∧ w1.fault = w.fault := by
  unfold copyFile at h
  have hopen : ∀ {x : Except Errno File} {wa : World}, osOpen src w = (x, wa) →
      wa.node = w.node ∧ wa.fault = w.fault := by
    intro x wa hopen
    unfold osOpen at hopen
    split at hopen
    · simp only [Prod.mk.injEq] at hopen
      rw [← hopen.2]
      exact ⟨rfl, rfl⟩
    · split at hopen <;>
      · simp only [Prod.mk.injEq] at hopen
        rw [← hopen.2]
        exact ⟨rfl, rfl⟩
  have hcopy : ∀ {x : Option GoError} {wb wc : World}, ioCopy dest src wb = (x, wc) →
      (∀ q, q ≠ dest → wc.node q = wb.node q) ∧ wc.fault = wb.fault := by
    intro x wb wc hcopy
    unfold ioCopy at hcopy
    split at hcopy
    · split at hcopy <;>
      · simp only [Prod.mk.injEq] at hcopy
        rw [← hcopy.2]
        exact ⟨fun q hq => by simp [set_node, hq, log_node], rfl⟩
    · simp only [Prod.mk.injEq] at hcopy
      rw [← hcopy.2]
      exact ⟨fun _ _ => rfl, rfl⟩
    · simp only [Prod.mk.injEq] at hcopy
      rw [← hcopy.2]
      exact ⟨fun _ _ => rfl, rfl⟩
  split at h
  · rename_i e wa ho
    simp only [Prod.mk.injEq] at h
    rw [← h.2]
    exact ⟨fun q _ => by rw [(hopen ho).1], (hopen ho).2⟩
  · rename_i hs wa ho
    split at h
    · rename_i e wb hcr
      simp only [Prod.mk.injEq] at h
      rw [← h.2]
      obtain ⟨h1, h2⟩ := osCreate_frame hcr
      exact ⟨fun q hq => by rw [log_node, h1 q hq, (hopen ho).1], by rw [log_fault, h2, (hopen ho).2]⟩
    · rename_i hd wb hcr
      obtain ⟨h1, h2⟩ := osCreate_frame hcr
      split at h <;>
      · rename_i hcp
        obtain ⟨h3, h4⟩ := hcopy hcp
        simp only [Prod.mk.injEq] at h
        rw [← h.2]
        exact ⟨fun q hq => by rw [log_node, log_node, h3 q hq, h1 q hq, (hopen ho).1],
          by rw [log_fault, log_fault, h4, h2, (hopen ho).2]⟩

/-! ## The steps of `rotate`, `Write` and the cascade -/

theorem Close_world (h : File) (w : World) :
    (h.Close w).2.2.node = w.node ∧ (h.Close w).2.2.fault = w.fault := by
  unfold File.Close
  split <;> exact ⟨rfl, rfl⟩

theorem stem_extension_of_split {name fname ext : String} {rest : List String}
    (h : stringsSplitDot name = fname :: ext :: rest) :
    stem name = fname ∧ extension name = ext := by
  simp [stem, extension, h]

/-- The steps of a rotation that returns without error. -/
theorem rotate_ok_inv {f f1 : RollingLogFile} {w w3 : World}
    (h : rotate f w = .ok (none, f1, w3)) :
    ∃ w1 w2, w1.node = w.node ∧ w1.fault = w.fault ∧
      ((w.isFile (f.backupPath 1) = false ∧
          copyFile f.Path (f.backupPath 1) w1 = (none, w2)) ∨
        (w.isFile (f.backupPath 1) = true ∧
          cascade f (stem f.FileName) (extension f.FileName)
            (wrapInt (f.backupCount - 1)).toNat w1 = .ok (none, w2))) ∧
      w3 = (w2.log (.create f.Path)).set f.Path (.file []) ∧
      f1 = { f with fileHandle := ⟨f.Path, false⟩ } := by
  unfold rotate at h
  obtain ⟨hcn, hcf⟩ := Close_world f.fileHandle w
  split at h
  rename_i e0 h0 w0 hclose
  rw [hclose] at hcn hcf
  simp only at hcn hcf
  split at h
  · rename_i fname ext rest hsplit
    obtain ⟨hs, he⟩ := stem_extension_of_split hsplit
    have hb : f.backupPath 1 = filepathJoin f.LogDir (backupName fname 1 ext) := by
      unfold RollingLogFile.backupPath
      rw [hs, he]
    simp only at h
    rw [← hb] at h
    split at h
    · simp at h
    · rename_i fstExists w1 hex
      obtain ⟨hbe, hw1⟩ := fileExists_ok hex
      have hw1n : w1.node = w.node := by rw [hw1, log_node, hcn]
      have hw1f : w1.fault = w.fault := by rw [hw1, log_fault, hcf]
      have hbe2 : fstExists = w.isFile (f.backupPath 1) := by
        rw [hbe]
        exact isFile_congr (by rw [hcn])
      split at h
      · simp at h
      · simp at h
      · rename_i w2 hcopied
        refine ⟨w1, w2, hw1n, hw1f, ?_, ?_⟩
        · cases hfe : fstExists
          · left
            rw [hfe] at hcopied
            simp only [Bool.not_false, if_true, Except.ok.injEq] at hcopied
            exact ⟨by rw [← hbe2, hfe], hcopied⟩
          · right
            rw [hfe] at hcopied
            simp only [Bool.not_true, Bool.false_eq_true, if_false] at hcopied
            rw [hs, he]
            exact ⟨by rw [← hbe2, hfe], hcopied⟩
        · split at h
          · simp at h
          · rename_i newHandle w3a hcreate
            obtain ⟨hh, hw⟩ := osCreate_ok hcreate
            simp only [Except.ok.injEq, Prod.mk.injEq, true_and] at h
            refine ⟨by rw [← h.2, hw], ?_⟩
            rw [← h.1, hh]
  · simp at h

/-- The steps of a `Write` that returns without error. -/
theorem Write_ok_inv {f f1 : RollingLogFile} {data : List Byte} {w w3 : World} {n : Nat}
    (hname : f.fileHandle.name = f.Path)
    (h : Write f data w = .ok ((n, none), f1, w3)) :
    n = data.length ∧ ∃ old w2, w.node f.Path = some (.file old) ∧
      w2.fault = w.fault ∧
      (∀ q, w2.node q = if q = f.Path then some (.file (old ++ data)) else w.node q) ∧
      ((((old ++ data).length : Int) < f.maxSizeBytes ∧ f1 = f ∧ w3 = w2) ∨
        (f.maxSizeBytes ≤ ((old ++ data).length : Int) ∧ rotate f w2 = .ok (none, f1, w3))) := by
  unfold Write at h
  split at h
  · simp at h
  · rename_i i w1 hwr
    obtain ⟨-, hi, old, hnode, hw1⟩ := File_Write_ok hwr
    rw [hname] at hnode hw1
    split at h
    · simp at h
    · rename_i size w2 hsz
      obtain ⟨hw2, hsize⟩ := getFileSizeBytes_ok hsz
      have hn1 : w1.node f.Path = some (.file (old ++ data)) := by
        rw [hw1, set_node, if_pos rfl]
      have hsize := hsize _ hn1
      have hw2n : ∀ q, w2.node q = if q = f.Path then some (.file (old ++ data)) else w.node q := by
        intro q
        rw [hw2, log_node, hw1, set_node, log_node]
      have hw2f : w2.fault = w.fault := by
        rw [hw2, log_fault, hw1, set_fault, log_fault]
      split at h
      · rename_i hge
        split at h
        · simp at h
        · simp at h
        · rename_i f1a w3a hrot
          simp only [Except.ok.injEq, Prod.mk.injEq, and_true] at h
          obtain ⟨hn, hf, hw⟩ := h
          subst hf hw
          refine ⟨by rw [← hn, hi], old, w2, hnode, hw2f, hw2n, Or.inr ⟨?_, hrot⟩⟩
          rw [← hsize]
          exact hge
      · rename_i hlt
        simp only [Except.ok.injEq, Prod.mk.injEq, and_true] at h
        obtain ⟨hn, hf, hw⟩ := h
        refine ⟨by rw [← hn, hi], old, w2, hnode, hw2f, hw2n, Or.inl ⟨?_, hf.symm, hw.symm⟩⟩
        rw [← hsize]
        exact lt_of_not_ge hlt

/-- One pass of the cascade loop, in the vocabulary of the claims. -/
theorem cascade_succ (f : RollingLogFile) (i : Nat) (w : World)
    (src : String)
    (hsrc : src = filepathJoin f.LogDir
      (if i = 0 then f.FileName else backupName (stem f.FileName) i (extension f.FileName))) :
    cascade f (stem f.FileName) (extension f.FileName) (i + 1) w =
      match fileExists src w with
      | .error p => .error p
      | .ok (true, w1) =>
        match copyFile src (f.backupPath (i + 1)) w1 with
        | (some err, w2) => .ok (some err, w2)
        | (none, w2) => cascade f (stem f.FileName) (extension f.FileName) i w2
      | .ok (false, w1) => cascade f (stem f.FileName) (extension f.FileName) i w1 := by
  subst hsrc
  rfl

/-- Whatever the cascade returns, it touches no path but those of the backups
it ran over. -/
theorem cascade_frame (f : RollingLogFile) (M : Nat) :
    ∀ {w w1 : World} {r : Option GoError},
      cascade f (stem f.FileName) (extension f.FileName) M w = .ok (r, w1) →
      (∀ q, (∀ i, 1 ≤ i → i ≤ M → q ≠ f.backupPath i) → w1.node q = w.node q) ∧
        w1.fault = w.fault := by
  induction M with
  | zero =>
    intro w w1 r h
    simp only [cascade, Except.ok.injEq, Prod.mk.injEq] at h
    rw [← h.2]
    exact ⟨fun _ _ => rfl, rfl⟩
  | succ M ih =>
    intro w w1 r h
    rw [cascade_succ f M w _ rfl] at h
    split at h
    · simp at h
    · rename_i wa hex
      obtain ⟨-, hwa⟩ := fileExists_ok hex
      split at h
      · rename_i err wb hcp
        obtain ⟨hfr, hff⟩ := copyFile_frame hcp
        simp only [Except.ok.injEq, Prod.mk.injEq] at h
        rw [← h.2]
        refine ⟨fun q hq => ?_, by rw [hff, hwa, log_fault]⟩
        rw [hfr q (hq (M + 1) (by omega) (le_refl _)), hwa, log_node]
      · rename_i wb hcp
        obtain ⟨hfr, hff⟩ := copyFile_frame hcp
        obtain ⟨h1, h2⟩ := ih h
        refine ⟨fun q hq => ?_, by rw [h2, hff, hwa, log_fault]⟩
        rw [h1 q (fun i hi hiM => hq i hi (by omega)),
          hfr q (hq (M + 1) (by omega) (le_refl _)), hwa, log_node]
    · rename_i wa hex
      obtain ⟨-, hwa⟩ := fileExists_ok hex
      obtain ⟨h1, h2⟩ := ih h
      refine ⟨fun q hq => ?_, by rw [h2, hwa, log_fault]⟩
      rw [h1 q (fun i hi hiM => hq i hi (by omega)), hwa, log_node]

/-- The path the cascade reads for backup `i + 1`. -/
theorem sourcePath_succ (f : RollingLogFile) (hP : f.Path = filepathJoin f.LogDir f.FileName)
    (i : Nat) :
    f.sourcePath (i + 1) = filepathJoin f.LogDir
      (if i = 0 then f.FileName else backupName (stem f.FileName) i (extension f.FileName)) := by
  unfold RollingLogFile.sourcePath
  by_cases hi : i = 0
  · subst hi
    simp [hP]
  · simp [hi, RollingLogFile.backupPath]

/-- A cascade that returns without error gives every backup it ran over the
bytes its source had when the cascade began, and leaves alone the backups
whose source was no regular file; the paths involved are taken to differ. -/
theorem cascade_spec (f : RollingLogFile) (hP : f.Path = filepathJoin f.LogDir f.FileName)
    (hD : ∀ i j, 1 ≤ i → i < j → f.backupPath i ≠ f.backupPath j)
    (hA : ∀ i, 1 ≤ i → f.backupPath i ≠ f.Path) (M : Nat) :
    ∀ {w w1 : World},
      cascade f (stem f.FileName) (extension f.FileName) M w = .ok (none, w1) →
      ∀ i, 1 ≤ i → i ≤ M →
        (∀ d, w.node (f.sourcePath i) = some (.file d) →
          w1.node (f.backupPath i) = some (.file d)) ∧
        (w.isFile (f.sourcePath i) = false →
          w1.node (f.backupPath i) = w.node (f.backupPath i)) := by
  have hsrcne : ∀ i j, 1 ≤ i → i ≤ j → f.sourcePath i ≠ f.backupPath j := by
    intro i j hi hij
    unfold RollingLogFile.sourcePath
    split
    · exact fun h => hA j (by omega) h.symm
    · exact hD (i - 1) j (by omega) (by omega)
  induction M with
  | zero =>
    intro w w1 _ i hi hiM
    omega
  | succ M ih =>
    intro w w1 h i hi hiM
    rw [cascade_succ f M w _ (sourcePath_succ f hP M)] at h
    split at h
    · simp at h
    · rename_i wa hex
      obtain ⟨hb, hwa⟩ := fileExists_ok hex
      split at h
      · simp at h
      · rename_i wb hcp
        obtain ⟨d0, hd0, -, hwb⟩ := copyFile_ok hcp (hsrcne (M + 1) (M + 1) (by omega) (le_refl _))
        rw [hwa, log_node] at hd0
        have hwbn : ∀ q, q ≠ f.backupPath (M + 1) → wb.node q = w.node q := by
          intro q hq
          rw [hwb, if_neg hq, hwa, log_node]
        by_cases hlast : i = M + 1
        · subst hlast
          have hfr := (cascade_frame f M h).1 (f.backupPath (M + 1))
            (fun j hj hjM => (hD j (M + 1) hj (by omega)).symm)
          rw [hfr, hwb, if_pos rfl]
          refine ⟨fun d hd => ?_, fun hno => ?_⟩
          · rw [hd0] at hd
            simp only [Option.some.injEq, Node.file.injEq] at hd
            rw [hd]
          · rw [isFile_eq_false] at hno
            exact absurd hd0 (hno d0)
        · have hiM2 : i ≤ M := by omega
          obtain ⟨ih1, ih2⟩ := ih h i hi hiM2
          have hs : wb.node (f.sourcePath i) = w.node (f.sourcePath i) :=
            hwbn _ (hsrcne i (M + 1) hi (by omega))
          have hbk : wb.node (f.backupPath i) = w.node (f.backupPath i) :=
            hwbn _ (hD i (M + 1) hi (by omega))
          refine ⟨fun d hd => ih1 d (by rw [hs]; exact hd), fun hno => ?_⟩
          rw [ih2 (by rw [isFile_congr hs]; exact hno), hbk]
    · rename_i wa hex
      obtain ⟨hb, hwa⟩ := fileExists_ok hex
      by_cases hlast : i = M + 1
      · subst hlast
        have hfr := (cascade_frame f M h).1 (f.backupPath (M + 1))
          (fun j hj hjM => (hD j (M + 1) hj (by omega)).symm)
        rw [hfr, hwa, log_node]
        refine ⟨fun d hd => ?_, fun _ => rfl⟩
        have := isFile_eq_false.mp hb.symm d
        exact absurd hd this
      · have hiM2 : i ≤ M := by omega
        obtain ⟨ih1, ih2⟩ := ih h i hi hiM2
        rw [hwa] at ih1 ih2
        exact ⟨ih1, ih2⟩

/-! ## Numbers, splitting and paths -/

/-- The model of `filepath.Clean` on paths with repeated separators, `.` and
`..` elements, rooted and relative. -/
theorem filepathClean_examples :
    filepathClean "" = "." ∧ filepathClean "abc//def//ghi" = "abc/def/ghi" ∧
      filepathClean "//abc//" = "/abc" ∧ filepathClean "abc/./def" = "abc/def" ∧
      filepathClean "abc/def/../ghi/../jkl" = "abc/jkl" ∧
      filepathClean "abc/def/../.." = "." ∧ filepathClean "/abc/def/../../.." = "/" ∧
      filepathClean "abc/def/../../.." = ".." ∧
      filepathClean "abc/def/../../../ghi/jkl/../../../mno" = "../../mno" ∧
      filepathClean "/../abc" = "/abc" ∧ filepathClean "abc/../../././../def" = "../../def" := by
  decide

/-- The model of `filepath.Join` on two elements. -/
theorem filepathJoin_examples :
    filepathJoin "logs" "app.log" = "logs/app.log" ∧ filepathJoin "" "app.log" = "app.log" ∧
      filepathJoin "logs" "" = "logs" ∧ filepathJoin "" "" = "" ∧
      filepathJoin "a/b" "/c" = "a/b/c" ∧ filepathJoin "a/b" "../../../xyz" = "../xyz" ∧
      filepathJoin "/var/log/" "app.log" = "/var/log/app.log" := by
  decide

/-- The model of `strings.Split` at the separator `.`. -/
theorem stringsSplitDot_examples :
    stringsSplitDot "app.log" = ["app", "log"] ∧ stringsSplitDot "applog" = ["applog"] ∧
      stringsSplitDot "" = [""] ∧ stringsSplitDot "a..b." = ["a", "", "b", ""] ∧
      backupName "app" 12 "log" = "app_bkp_12.log" := by
  decide

theorem digitChar_value (k : Nat) (hk : k < 10) : (Nat.digitChar k).toNat - 48 = k := by
  interval_cases k <;> rfl

theorem toDigitsCore_append (fuel : Nat) : ∀ (n : Nat) (ds : List Char),
    Nat.toDigitsCore 10 fuel n ds = Nat.toDigitsCore 10 fuel n [] ++ ds := by
  induction fuel with
  | zero => intro n ds; simp [Nat.toDigitsCore]
  | succ fuel ih =>
    intro n ds
    simp only [Nat.toDigitsCore]
    split
    · simp
    · rw [ih (n / 10) (_ :: ds), ih (n / 10) [_]]
      simp

theorem decimalValue_append (a : List Char) (c : Char) :
    decimalValue (a ++ [c]) = 10 * decimalValue a + (c.toNat - 48) := by
  simp [decimalValue, List.foldl_append]

theorem decimalValue_toDigitsCore (fuel : Nat) : ∀ n, n < fuel →
    decimalValue (Nat.toDigitsCore 10 fuel n []) = n := by
  induction fuel with
  | zero => intro n h; omega
  | succ fuel ih =>
    intro n hn
    simp only [Nat.toDigitsCore]
    split
    · rename_i h0
      have hd := digitChar_value (n % 10) (Nat.mod_lt _ (by decide))
      have : n % 10 = n := by omega
      simp only [decimalValue, List.foldl_cons, List.foldl_nil, Nat.mul_zero, Nat.zero_add]
      rw [hd, this]
    · rename_i h0
      rw [toDigitsCore_append, decimalValue_append, ih (n / 10) (by omega),
        digitChar_value (n % 10) (Nat.mod_lt _ (by decide))]
      omega

/-- Printing a number in decimal loses nothing. -/
theorem toString_nat_injective {i j : Nat} (h : (toString i).data = (toString j).data) :
    i = j := by
  have hi : (toString i).data = Nat.toDigits 10 i := rfl
  have hj : (toString j).data = Nat.toDigits 10 j := rfl
  rw [hi, hj] at h
  have := congrArg decimalValue h
  simp only [Nat.toDigits] at this
  rwa [decimalValue_toDigitsCore _ _ (Nat.lt_succ_self i),
    decimalValue_toDigitsCore _ _ (Nat.lt_succ_self j)] at this

theorem digitChar_ne_slash (k : Nat) (hk : k < 10) : Nat.digitChar k ≠ '/' := by
  interval_cases k <;> decide

theorem toDigitsCore_no_slash (fuel : Nat) : ∀ (n : Nat) (ds : List Char),
    '/' ∉ ds → '/' ∉ Nat.toDigitsCore 10 fuel n ds := by
  induction fuel with
  | zero => intro n ds h; simpa [Nat.toDigitsCore] using h
  | succ fuel ih =>
    intro n ds h
    have hd : '/' ∉ Nat.digitChar (n % 10) :: ds := by
      simp only [List.mem_cons, not_or]
      exact ⟨(digitChar_ne_slash _ (Nat.mod_lt _ (by decide))).symm, h⟩
    simp only [Nat.toDigitsCore]
    split
    · exact hd
    · exact ih _ _ hd

/-- A printed number contains no `/`. -/
theorem toString_nat_no_slash (n : Nat) : '/' ∉ (toString n).data := by
  have hi : (toString n).data = Nat.toDigits 10 n := rfl
  rw [hi]
  exact toDigitsCore_no_slash _ _ _ (by simp)

theorem splitChars_ne_nil (sep : Char) (l : List Char) : splitChars sep l ≠ [] := by
  cases l with
  | nil => simp [splitChars]
  | cons c cs =>
    simp only [splitChars]
    split
    · simp
    · split <;> simp

theorem splitChars_cons_sep (sep : Char) (cs : List Char) :
    splitChars sep (sep :: cs) = [] :: splitChars sep cs := by
  simp [splitChars]

theorem splitChars_cons_ne {sep c : Char} (hc : c ≠ sep) {cs : List Char} {h : List Char}
    {t : List (List Char)} (hs : splitChars sep cs = h :: t) :
    splitChars sep (c :: cs) = (c :: h) :: t := by
  simp [splitChars, hc, hs]

/-- Splitting a concatenation: the last piece of the left part and the first
piece of the right part grow together. -/
theorem splitChars_append (sep : Char) : ∀ (a : List Char) {A : List (List Char)} {x : List Char},
    splitChars sep a = A ++ [x] → ∀ {b : List Char} {y : List Char} {B : List (List Char)},
    splitChars sep b = y :: B → splitChars sep (a ++ b) = A ++ (x ++ y) :: B := by
  intro a
  induction a with
  | nil =>
    intro A x ha b y B hb
    simp only [splitChars] at ha
    have : A = [] ∧ x = [] := by
      cases A with
      | nil => simpa using ha.symm
      | cons a0 A0 =>
        have := congrArg List.length ha
        simp at this
    obtain ⟨rfl, rfl⟩ := this
    simpa using hb
  | cons c cs ih =>
    intro A x ha b y B hb
    obtain ⟨A0, x0, h0⟩ : ∃ A0 x0, splitChars sep cs = A0 ++ [x0] := by
      have hne := splitChars_ne_nil sep cs
      exact ⟨_, _, (List.dropLast_append_getLast hne).symm⟩
    have ih0 := ih h0 hb
    by_cases hc : c = sep
    · subst hc
      rw [splitChars_cons_sep, h0] at ha
      rw [List.cons_append, splitChars_cons_sep, ih0]
      have : A = [] :: A0 ∧ x = x0 := by
        have h1 : ([] : List Char) :: (A0 ++ [x0]) = ([] :: A0) ++ [x0] := rfl
        rw [h1] at ha
        have := List.append_inj' ha rfl
        exact ⟨this.1.symm, by simpa using this.2.symm⟩
      obtain ⟨rfl, rfl⟩ := this
      rfl
    · cases A0 with
      | nil =>
        rw [List.nil_append] at h0 ih0
        rw [splitChars_cons_ne hc h0] at ha
        rw [List.cons_append, splitChars_cons_ne hc ih0]
        have : A = [] ∧ x = c :: x0 := by
          have h1 : [c :: x0] = ([] : List (List Char)) ++ [c :: x0] := rfl
          rw [h1] at ha
          have := List.append_inj' ha rfl
          exact ⟨this.1.symm, by simpa using this.2.symm⟩
        obtain ⟨rfl, rfl⟩ := this
        rfl
      | cons h A1 =>
        rw [List.cons_append] at h0 ih0
        rw [splitChars_cons_ne hc h0] at ha
        rw [List.cons_append, splitChars_cons_ne hc ih0]
        have : A = (c :: h) :: A1 ∧ x = x0 := by
          have h1 : (c :: h) :: (A1 ++ [x0]) = ((c :: h) :: A1) ++ [x0] := rfl
          rw [h1] at ha
          have := List.append_inj' ha rfl
          exact ⟨this.1.symm, by simpa using this.2.symm⟩
        obtain ⟨rfl, rfl⟩ := this
        rfl

/-- A list without the separator is a single piece. -/
theorem splitChars_of_not_mem {sep : Char} : ∀ {m : List Char}, sep ∉ m → splitChars sep m = [m] := by
  intro m
  induction m with
  | nil => intro _; rfl
  | cons c cs ih =>
    intro h
    simp only [List.mem_cons, not_or] at h
    exact splitChars_cons_ne (Ne.symm h.1) (ih h.2)

/-- The pieces of a split consist of characters of the list that was split. -/
theorem mem_of_mem_splitChars {sep : Char} : ∀ {l : List Char} {p : List Char} {ch : Char},
    p ∈ splitChars sep l → ch ∈ p → ch ∈ l := by
  intro l
  induction l with
  | nil =>
    intro p ch hp hch
    simp only [splitChars, List.mem_singleton] at hp
    subst hp
    exact hch
  | cons c cs ih =>
    intro p ch hp hch
    by_cases hc : c = sep
    · subst hc
      rw [splitChars_cons_sep, List.mem_cons] at hp
      rcases hp with rfl | hp
      · simp at hch
      · exact List.mem_cons_of_mem _ (ih hp hch)
    · obtain ⟨h, t, hs⟩ : ∃ h t, splitChars sep cs = h :: t :=
        List.exists_cons_of_ne_nil (splitChars_ne_nil sep cs)
      rw [splitChars_cons_ne hc hs, List.mem_cons] at hp
      rcases hp with rfl | hp
      · rw [List.mem_cons] at hch
        rcases hch with rfl | hch
        · exact List.mem_cons_self _ _
        · exact List.mem_cons_of_mem _ (ih (by rw [hs]; exact List.mem_cons_self _ _) hch)
      · exact List.mem_cons_of_mem _ (ih (by rw [hs]; exact List.mem_cons_of_mem _ hp) hch)

theorem joinSlash_cons_of_ne_nil (e : List Char) {es : List (List Char)} (h : es ≠ []) :
    joinSlash (e :: es) = e ++ '/' :: joinSlash es := by
  cases es with
  | nil => exact absurd rfl h
  | cons a as => rfl

theorem joinSlash_cons (x : List Char) (R : List (List Char)) :
    joinSlash (x :: R) = x ++ slashBefore R := by
  induction R generalizing x with
  | nil => simp [joinSlash, slashBefore]
  | cons r R ih =>
    rw [joinSlash_cons_of_ne_nil x (List.cons_ne_nil r R), ih r]
    simp [slashBefore]

/-- A joined path, cut around one of its elements. -/
theorem joinSlash_mid (L : List (List Char)) (x : List Char) (R : List (List Char)) :
    joinSlash (L ++ x :: R) = slashAfter L ++ (x ++ slashBefore R) := by
  induction L with
  | nil => simp [slashAfter, joinSlash_cons]
  | cons l L ih =>
    rw [List.cons_append, joinSlash_cons_of_ne_nil l (by simp), ih]
    simp [slashAfter]

theorem joinSlash_length_le (L R : List (List Char)) :
    (joinSlash (L ++ R)).length ≤ (slashAfter L).length + (slashBefore R).length := by
  induction L with
  | nil =>
    cases R with
    | nil => simp [joinSlash]
    | cons r R => simp [joinSlash_cons, slashBefore, slashAfter]
  | cons l L ih =>
    by_cases h : L ++ R = []
    · rw [List.cons_append, h]
      simp only [joinSlash, slashAfter, List.length_append, List.length_cons]
      omega
    · rw [List.cons_append, joinSlash_cons_of_ne_nil l h]
      simp only [slashAfter, List.length_append, List.length_cons]
      omega

theorem cleanStep_of_underscore (r : Bool) (Z : List (List Char)) {m : List Char}
    (h : '_' ∈ m) : cleanStep r Z m = m :: Z := by
  have h1 : m ≠ [] := by rintro rfl; simp at h
  have h2 : m ≠ ['.'] := by rintro rfl; simp at h
  have h3 : m ≠ ['.', '.'] := by rintro rfl; simp at h
  simp [cleanStep, h1, h2, h3]

theorem cleanStep_of_no_dot (r : Bool) (Z : List (List Char)) {c : List Char}
    (h : '.' ∉ c) : cleanStep r Z c = if c = [] then Z else c :: Z := by
  have h2 : c ≠ ['.'] := by rintro rfl; simp at h
  have h3 : c ≠ ['.', '.'] := by rintro rfl; simp at h
  simp [cleanStep, h2, h3]

theorem foldl_cleanStep_of_no_dot (r : Bool) : ∀ (B : List (List Char)) (Z : List (List Char)),
    (∀ c ∈ B, '.' ∉ c) →
    B.foldl (cleanStep r) Z = (B.filter (fun c => decide (c ≠ []))).reverse ++ Z := by
  intro B
  induction B with
  | nil => intro Z _; rfl
  | cons b B ih =>
    intro Z h
    rw [List.foldl_cons, cleanStep_of_no_dot r Z (h b (List.mem_cons_self _ _)),
      ih _ (fun c hc => h c (List.mem_cons_of_mem _ hc))]
    by_cases hb : b = []
    · simp [hb]
    · simp [hb, List.filter_cons]

theorem cleanStep_one_dot (r : Bool) (Z : List (List Char)) {x y : List Char}
    (hx : '.' ∉ x) (hy : '.' ∉ y) :
    cleanStep r Z (x ++ '.' :: y) = if x = [] ∧ y = [] then Z else (x ++ '.' :: y) :: Z := by
  have h1 : x ++ '.' :: y ≠ [] := by simp
  have h3 : x ++ '.' :: y ≠ ['.', '.'] := by
    intro h
    have := congrArg (List.count '.') h
    simp [List.count_eq_zero.mpr hx, List.count_eq_zero.mpr hy] at this
  by_cases hxy : x = [] ∧ y = []
  · obtain ⟨rfl, rfl⟩ := hxy
    simp [cleanStep]
  · have h2 : x ++ '.' :: y ≠ ['.'] := by
      intro h
      apply hxy
      have hl := congrArg List.length h
      simp at hl
      have hx0 : x = [] := List.length_eq_zero.mp (by omega)
      have hy0 : y = [] := List.length_eq_zero.mp (by omega)
      exact ⟨hx0, hy0⟩
    simp [cleanStep, h1, h2, h3, hxy]

/-- The pieces of the text handed to `filepath.Clean` for a name `s ++ M ++ e`
whose middle part holds no `/`. -/
theorem splitChars_joinedText (dir : String) (s e : List Char) :
    ∃ (A : List (List Char)) (x y : List Char) (B : List (List Char)),
      (∀ c ∈ x, c ∈ s) ∧ (∀ p ∈ y :: B, ∀ c ∈ p, c ∈ e) ∧
      ∀ M : List Char, '/' ∉ M →
        splitChars '/' (joinedText dir (s ++ (M ++ e))) = A ++ (x ++ (M ++ y)) :: B := by
  obtain ⟨As, x, hs⟩ : ∃ As x, splitChars '/' s = As ++ [x] :=
    ⟨_, _, (List.dropLast_append_getLast (splitChars_ne_nil '/' s)).symm⟩
  obtain ⟨y, B, he⟩ : ∃ y B, splitChars '/' e = y :: B :=
    List.exists_cons_of_ne_nil (splitChars_ne_nil '/' e)
  have hx : ∀ c ∈ x, c ∈ s := fun c hc =>
    mem_of_mem_splitChars (by rw [hs]; simp) hc
  have hyB : ∀ p ∈ y :: B, ∀ c ∈ p, c ∈ e := fun p hp c hc =>
    mem_of_mem_splitChars (by rw [he]; exact hp) hc
  have hname : ∀ M : List Char, '/' ∉ M →
      splitChars '/' (s ++ (M ++ e)) = As ++ (x ++ (M ++ y)) :: B := by
    intro M hM
    have h1 : splitChars '/' (M ++ e) = (M ++ y) :: B := by
      have := splitChars_append '/' M (A := []) (x := M)
        (by rw [splitChars_of_not_mem hM]; rfl) he
      simpa using this
    exact splitChars_append '/' s hs h1
  by_cases hd : dir = ""
  · refine ⟨As, x, y, B, hx, hyB, fun M hM => ?_⟩
    simp only [joinedText, hd, if_true]
    exact hname M hM
  · obtain ⟨Ad, xd, hdir⟩ : ∃ Ad xd, splitChars '/' dir.data = Ad ++ [xd] :=
      ⟨_, _, (List.dropLast_append_getLast (splitChars_ne_nil '/' dir.data)).symm⟩
    refine ⟨Ad ++ [xd] ++ As, x, y, B, hx, hyB, fun M hM => ?_⟩
    simp only [joinedText, hd, if_false]
    have h2 : splitChars '/' ('/' :: (s ++ (M ++ e))) = [] :: (As ++ (x ++ (M ++ y)) :: B) := by
      rw [splitChars_cons_sep, hname M hM]
    rw [splitChars_append '/' dir.data hdir h2]
    simp

theorem head_joinedText (dir : String) (s e : List Char) {M M1 : List Char}
    (hM : M.head? ≠ some '/') (hM1 : M1.head? ≠ some '/') (hne : M ≠ []) (hne1 : M1 ≠ []) :
    ((joinedText dir (s ++ (M ++ e))).head? == some '/') =
      ((joinedText dir (s ++ (M1 ++ e))).head? == some '/') := by
  unfold joinedText
  by_cases hd : dir = ""
  · simp only [hd, if_true]
    cases s with
    | nil =>
      cases M with
      | nil => exact absurd rfl hne
      | cons m M =>
        cases M1 with
        | nil => exact absurd rfl hne1
        | cons m1 M1 =>
          simp only [List.head?_cons, ne_eq, Option.some.injEq] at hM hM1
          simp [hM, hM1]
    | cons c s => simp
  · simp only [hd, if_false]
    have : dir.data ≠ [] := by
      intro h
      apply hd
      cases dir
      simp_all
    cases hdd : dir.data with
    | nil => exact absurd hdd this
    | cons c cs => simp

theorem joinedText_ne_nil (dir : String) {name : List Char} (h : name ≠ []) :
    joinedText dir name ≠ [] := by
  unfold joinedText
  split
  · exact h
  · simp

/-- The shape of the cleaned path of a name `s ++ M ++ e` whose stem `s` and
extension `e` hold no `.`: everything around the path element of `M` is the
same for every `M`. -/
theorem cleanChars_shape (dir : String) (s e : List Char) (hs : '.' ∉ s) (he : '.' ∉ e) :
    ∃ (r : Bool) (L R : List (List Char)) (x y : List Char),
      (∀ M : List Char, '/' ∉ M → '_' ∈ M →
        cleanChars (joinedText dir (s ++ (M ++ e))) =
          (if r then ['/'] else []) ++ (slashAfter L ++ ((x ++ (M ++ y)) ++ slashBefore R))) ∧
      cleanChars (joinedText dir (s ++ ('.' :: e))) =
        if x = [] ∧ y = [] then
          (if r then '/' :: joinSlash (L ++ R)
            else if joinSlash (L ++ R) = [] then ['.'] else joinSlash (L ++ R))
        else (if r then ['/'] else []) ++
          (slashAfter L ++ ((x ++ '.' :: y) ++ slashBefore R)) := by
  obtain ⟨A, x, y, B, hx, hyB, hsplit⟩ := splitChars_joinedText dir s e
  have hxd : '.' ∉ x := fun h => hs (hx _ h)
  have hyd : '.' ∉ y := fun h => he (hyB y (List.mem_cons_self _ _) _ h)
  have hBd : ∀ c ∈ B, '.' ∉ c := fun c hc h => he (hyB c (List.mem_cons_of_mem _ hc) _ h)
  obtain ⟨r, hrdef⟩ : ∃ r : Bool,
      r = ((joinedText dir (s ++ (['_'] ++ e))).head? == some '/') := ⟨_, rfl⟩
  have hr : ∀ M : List Char, '/' ∉ M → M ≠ [] →
      ((joinedText dir (s ++ (M ++ e))).head? == some '/') = r := by
    intro M hM hne
    rw [hrdef]
    refine head_joinedText dir s e ?_ (by simp) hne (by simp)
    intro h
    exact hM (List.mem_of_mem_head? h)
  obtain ⟨S, hSdef⟩ : ∃ S, S = A.foldl (cleanStep r) [] := ⟨_, rfl⟩
  have hstack : ∀ mid : List Char, (A ++ mid :: B).foldl (cleanStep r) [] =
      B.foldl (cleanStep r) (cleanStep r S mid) := by
    intro mid
    rw [List.foldl_append, List.foldl_cons, hSdef]
  refine ⟨r, S.reverse, B.filter (fun c => decide (c ≠ [])), x, y, ?_, ?_⟩
  · intro M hM hu
    have hne : M ≠ [] := by rintro rfl; simp at hu
    have htext : joinedText dir (s ++ (M ++ e)) ≠ [] :=
      joinedText_ne_nil dir (by simp [hne])
    have hmid : '_' ∈ x ++ (M ++ y) := by simp [hu]
    unfold cleanChars
    rw [if_neg htext]
    simp only [hr M hM hne, hsplit M hM, hstack, cleanStep_of_underscore r S hmid,
      foldl_cleanStep_of_no_dot r B _ hBd, List.reverse_append, List.reverse_cons,
      List.reverse_reverse, List.append_assoc, List.singleton_append, joinSlash_mid]
    cases r
    · have hb : slashAfter S.reverse ++ (x ++ (M ++ (y ++
          slashBefore (List.filter (fun c => decide (c ≠ [])) B)))) ≠ [] := by
        simp [hne]
      simp only [Bool.false_eq_true, if_false, if_neg hb, List.nil_append]
    · simp
  · have hM : '/' ∉ ['.'] := by simp
    have htext : joinedText dir (s ++ ('.' :: e)) ≠ [] :=
      joinedText_ne_nil dir (by simp)
    have h1 := hr ['.'] hM (by simp)
    have h2 := hsplit ['.'] hM
    simp only [List.singleton_append] at h1 h2
    unfold cleanChars
    rw [if_neg htext]
    simp only [h1, h2, hstack, cleanStep_one_dot r S hxd hyd]
    by_cases hxy : x = [] ∧ y = []
    · simp only [hxy, and_self, if_true, foldl_cleanStep_of_no_dot r B _ hBd,
        List.reverse_append, List.reverse_reverse]
    · simp only [hxy, if_false, foldl_cleanStep_of_no_dot r B _ hBd, List.reverse_append,
        List.reverse_cons, List.reverse_reverse, List.append_assoc, List.singleton_append,
        joinSlash_mid]
      cases r
      · have hb : slashAfter S.reverse ++ (x ++ ('.' :: (y ++
            slashBefore (List.filter (fun c => decide (c ≠ [])) B)))) ≠ [] := by
          simp
        simp only [Bool.false_eq_true, if_false, if_neg hb, List.nil_append, List.cons_append]
      · simp

/-- Two names that differ only in their middle part are cleaned to different paths. -/
theorem cleanChars_middle_injective (dir : String) (s e : List Char) (hs : '.' ∉ s)
    (he : '.' ∉ e) {M M1 : List Char} (hM : '/' ∉ M) (hu : '_' ∈ M) (hM1 : '/' ∉ M1)
    (hu1 : '_' ∈ M1)
    (h : cleanChars (joinedText dir (s ++ (M ++ e))) =
      cleanChars (joinedText dir (s ++ (M1 ++ e)))) : M = M1 := by
  obtain ⟨r, L, R, x, y, hshape, -⟩ := cleanChars_shape dir s e hs he
  rw [hshape M hM hu, hshape M1 hM1 hu1] at h
  have h := List.append_cancel_left (List.append_cancel_left h)
  rw [List.append_assoc, List.append_assoc, List.append_assoc, List.append_assoc] at h
  have h := List.append_cancel_left h
  exact List.append_cancel_right h

/-- The cleaned path of a backup name differs from that of the file name. -/
theorem cleanChars_backup_ne (dir : String) (s e : List Char) (hs : '.' ∉ s)
    (he : '.' ∉ e) {M : List Char} (hM : '/' ∉ M) (hu : M.head? = some '_') :
    cleanChars (joinedText dir (s ++ (M ++ e))) ≠
      cleanChars (joinedText dir (s ++ ('.' :: e))) := by
  obtain ⟨r, L, R, x, y, hshape, hdot⟩ := cleanChars_shape dir s e hs he
  have hmem : '_' ∈ M := List.mem_of_mem_head? hu
  rw [hshape M hM hmem, hdot]
  have hlen : 1 ≤ M.length := by
    cases M with
    | nil => simp at hmem
    | cons m M => simp
  intro h
  by_cases hxy : x = [] ∧ y = []
  · rw [if_pos hxy] at h
    have hl := congrArg List.length h
    have hle := joinSlash_length_le L R
    cases r
    · simp only [Bool.false_eq_true, if_false, List.nil_append, List.length_append] at hl
      have hM2 : M ≠ ['.'] := by rintro rfl; simp at hu
      split at hl
      · rename_i h0
        simp only [List.length_singleton] at hl
        have hM1 : M.length = 1 := by omega
        have hx0 : x.length = 0 := by omega
        have hy0 : y.length = 0 := by omega
        have hL0 : (slashAfter L).length = 0 := by omega
        have hR0 : (slashBefore R).length = 0 := by omega
        rw [List.length_eq_zero] at hx0 hy0 hL0 hR0
        rw [hx0, hy0, hL0, hR0] at h
        simp only [Bool.false_eq_true, if_false, List.nil_append, List.append_nil] at h
        rw [h0] at h
        simp only [if_true] at h
        exact hM2 h
      · omega
    · simp only [if_true, List.singleton_append, List.length_cons, List.length_append] at hl
      omega
  · rw [if_neg hxy] at h
    have h := List.append_cancel_left (List.append_cancel_left h)
    simp only [List.append_assoc, List.cons_append] at h
    have h2 : M ++ (y ++ slashBefore R) = '.' :: (y ++ slashBefore R) :=
      List.append_cancel_left h
    cases M with
    | nil => simp at hmem
    | cons m M =>
      simp only [List.head?_cons, Option.some.injEq] at hu
      subst hu
      simp at h2

theorem data_ne_nil_of_ne_empty {s : String} (h : s ≠ "") : s.data ≠ [] := by
  intro hd
  apply h
  cases s
  simp_all

theorem filepathJoin_eq (dir name : String) (h : name.data ≠ []) :
    filepathJoin dir name = String.mk (cleanChars (joinedText dir name.data)) := by
  have hn : name ≠ "" := by
    rintro rfl
    exact h rfl
  unfold filepathJoin joinedText filepathClean
  by_cases hd : dir = ""
  · simp [hd, hn]
  · simp [hd, String.data_append]

/-- The middle part of a backup name: `_bkp_`, the number, and the dot. -/
theorem backupName_data (s : String) (i : Nat) (e : String) :
    (backupName s i e).data =
      s.data ++ ((['_', 'b', 'k', 'p', '_'] ++ ((toString i).data ++ ['.'])) ++ e.data) := by
  simp [backupName, String.data_append]

theorem middle_no_slash (i : Nat) :
    '/' ∉ ['_', 'b', 'k', 'p', '_'] ++ ((toString i).data ++ ['.']) := by
  have := toString_nat_no_slash i
  simp [this]

theorem not_mem_of_mem_splitChars {sep : Char} : ∀ {l : List Char} {p : List Char},
    p ∈ splitChars sep l → sep ∉ p := by
  intro l
  induction l with
  | nil =>
    intro p hp
    simp only [splitChars, List.mem_singleton] at hp
    subst hp
    simp
  | cons c cs ih =>
    intro p hp
    by_cases hc : c = sep
    · subst hc
      rw [splitChars_cons_sep, List.mem_cons] at hp
      rcases hp with rfl | hp
      · simp
      · exact ih hp
    · obtain ⟨h, t, hs⟩ : ∃ h t, splitChars sep cs = h :: t :=
        List.exists_cons_of_ne_nil (splitChars_ne_nil sep cs)
      rw [splitChars_cons_ne hc hs, List.mem_cons] at hp
      rcases hp with rfl | hp
      · have := ih (p := h) (by rw [hs]; exact List.mem_cons_self _ _)
        simp only [List.mem_cons, not_or]
        exact ⟨Ne.symm hc, this⟩
      · exact ih (by rw [hs]; exact List.mem_cons_of_mem _ hp)

theorem getD_stringsSplitDot_no_dot (name : String) (k : Nat) :
    '.' ∉ ((stringsSplitDot name).getD k "").data := by
  unfold stringsSplitDot
  by_cases hk : k < (splitChars '.' name.data).length
  · rw [List.getD_eq_getElem _ _ (by simpa using hk)]
    simp only [List.getElem_map]
    exact not_mem_of_mem_splitChars (List.getElem_mem _)
  · rw [List.getD_eq_default _ _ (by simpa using hk)]
    simp

/-- The stem `rotate` takes from a name holds no `.`. -/
theorem stem_no_dot (name : String) : '.' ∉ (stem name).data :=
  getD_stringsSplitDot_no_dot name 0

/-- The extension `rotate` takes from a name holds no `.`. -/
theorem extension_no_dot (name : String) : '.' ∉ (extension name).data :=
  getD_stringsSplitDot_no_dot name 1

/-- A name with exactly one `.` is its stem, the dot, and its extension. -/
theorem oneDot_data {name : String} (h : OneDot name) :
    stringsSplitDot name = [stem name, extension name] ∧
      name.data = (stem name).data ++ '.' :: (extension name).data := by
  unfold OneDot at h
  have hmem : '.' ∈ name.data := List.count_pos_iff.mp (by omega)
  obtain ⟨a, b, hab⟩ := List.append_of_mem hmem
  rw [hab] at h
  simp only [List.count_append, List.count_cons_self] at h
  have ha : '.' ∉ a := List.count_eq_zero.mp (by omega)
  have hb : '.' ∉ b := List.count_eq_zero.mp (by omega)
  have hsplit : splitChars '.' name.data = [a, b] := by
    rw [hab]
    have h1 : splitChars '.' ('.' :: b) = [] :: [b] := by
      rw [splitChars_cons_sep, splitChars_of_not_mem hb]
    have := splitChars_append '.' a (A := []) (x := a)
      (by rw [splitChars_of_not_mem ha]; rfl) h1
    simpa using this
  have hs : stringsSplitDot name = [String.mk a, String.mk b] := by
    simp [stringsSplitDot, hsplit]
  have h1 : stem name = String.mk a := by simp [stem, hs]
  have h2 : extension name = String.mk b := by simp [extension, hs]
  rw [h1, h2]
  exact ⟨hs, hab⟩

/-- Backups with different numbers have different paths. -/
theorem backupPath_injective (f : RollingLogFile) {i j : Nat}
    (h : f.backupPath i = f.backupPath j) : i = j := by
  unfold RollingLogFile.backupPath at h
  rw [filepathJoin_eq _ _ (by rw [backupName_data]; simp),
    filepathJoin_eq _ _ (by rw [backupName_data]; simp),
    backupName_data, backupName_data] at h
  have h := congrArg String.data h
  simp only at h
  have hm := cleanChars_middle_injective f.LogDir _ _ (stem_no_dot _) (extension_no_dot _)
    (middle_no_slash i) (by simp) (middle_no_slash j) (by simp) h
  have hm := List.append_cancel_left hm
  have hm := List.append_cancel_right hm
  exact toString_nat_injective hm

/-- For a name with exactly one `.`, no backup has the path of the active file. -/
theorem backupPath_ne_Path (f : RollingLogFile)
    (hP : f.Path = filepathJoin f.LogDir f.FileName) (hdot : OneDot f.FileName) (i : Nat) :
    f.backupPath i ≠ f.Path := by
  obtain ⟨-, hdata⟩ := oneDot_data hdot
  rw [hP]
  unfold RollingLogFile.backupPath
  rw [filepathJoin_eq _ _ (by rw [backupName_data]; simp),
    filepathJoin_eq _ f.FileName (by rw [hdata]; simp), backupName_data, hdata]
  intro h
  have h := congrArg String.data h
  simp only at h
  exact cleanChars_backup_ne f.LogDir _ _ (stem_no_dot _) (extension_no_dot _)
    (middle_no_slash i) (by simp) h

/-! ## The claims -/

theorem wrapInt_pred {n : Int} (h1 : -(2 : Int) ^ 63 < n) (h2 : n < (2 : Int) ^ 63) :
    wrapInt (n - 1) = n - 1 := by
  unfold wrapInt
  have h3 : (n - 1 + 2 ^ 63) % 2 ^ 64 = n - 1 + 2 ^ 63 :=
    Int.emod_eq_of_lt (by omega) (by omega)
  rw [h3]
  omega

/-- What a rotation that returns without error leaves untouched. -/
theorem rotate_untouched {f f1 : RollingLogFile} {w w3 : World}
    (h : rotate f w = .ok (none, f1, w3)) :
    w3.node f.Path = some (.file []) ∧ w3.fault = w.fault ∧
      f1 = { f with fileHandle := ⟨f.Path, false⟩ } ∧
      ∀ q, q ≠ f.Path →
        (w.isFile (f.backupPath 1) = false → q ≠ f.backupPath 1 → w3.node q = w.node q) ∧
        (w.isFile (f.backupPath 1) = true →
          (∀ i, 1 ≤ i → i ≤ (wrapInt (f.backupCount - 1)).toNat → q ≠ f.backupPath i) →
          w3.node q = w.node q) := by
  obtain ⟨w1, w2, hn1, hf1, hbr, hw3, hf⟩ := rotate_ok_inv h
  have hfault : w2.fault = w.fault := by
    rcases hbr with ⟨-, hcp⟩ | ⟨-, hcas⟩
    · rw [(copyFile_frame hcp).2, hf1]
    · rw [(cascade_frame f _ hcas).2, hf1]
  refine ⟨by rw [hw3, set_node, if_pos rfl], by rw [hw3, set_fault, log_fault, hfault], hf,
    fun q hq => ⟨fun hno hq1 => ?_, fun hex hqi => ?_⟩⟩
  · rcases hbr with ⟨-, hcp⟩ | ⟨hex, -⟩
    · rw [hw3, set_node, if_neg hq, log_node, (copyFile_frame hcp).1 q hq1, hn1]
    · rw [hex] at hno
      simp at hno
  · rcases hbr with ⟨hno, -⟩ | ⟨-, hcas⟩
    · rw [hex] at hno
      simp at hno
    · rw [hw3, set_node, if_neg hq, log_node, (cascade_frame f _ hcas).1 q hqi, hn1]

/-- C2: a write that brings the active file to the size limit while backup 1
does not exist, and returns without error, leaves in backup 1 the bytes the
active file held just before the rotation (the old bytes followed by the
data) and leaves the active file empty. -/
theorem Write_first_rotation (f f1 : RollingLogFile) (data old : List Byte) (w w3 : World)
    (n : Nat) (hname : f.fileHandle.name = f.Path)
    (hold : w.content f.Path = some old)
    (hno : w.isFile (f.backupPath 1) = false)
    (hsize : f.maxSizeBytes ≤ ((old ++ data).length : Int))
    (hret : Write f data w = .ok ((n, none), f1, w3)) :
    w3.content (f.backupPath 1) = some (old ++ data) ∧ w3.content f.Path = some [] ∧
      n = data.length := by
  obtain ⟨hn, old1, w2, hnode, -, hw2, hbr⟩ := Write_ok_inv hname hret
  have holdeq : old1 = old := by
    rw [content_eq_some] at hold
    rw [hold] at hnode
    simpa using hnode.symm
  subst holdeq
  have hne : f.Path ≠ f.backupPath 1 := by
    intro heq
    rw [← heq, isFile_eq_false] at hno
    exact hno old1 hnode
  rcases hbr with ⟨hlt, -, -⟩ | ⟨-, hrot⟩
  · omega
  · obtain ⟨w1a, w2a, hn1, -, hbr2, hw3, -⟩ := rotate_ok_inv hrot
    have hno2 : w2.isFile (f.backupPath 1) = false := by
      rw [← hno]
      exact isFile_congr (by rw [hw2, if_neg (Ne.symm hne)])
    rcases hbr2 with ⟨-, hcp⟩ | ⟨hex, -⟩
    · obtain ⟨d, hd, -, hw2a⟩ := copyFile_ok hcp hne
      rw [hn1, hw2, if_pos rfl] at hd
      simp only [Option.some.injEq, Node.file.injEq] at hd
      subst hd
      refine ⟨?_, ?_, hn⟩
      · rw [content_eq_some, hw3, set_node, if_neg (Ne.symm hne), log_node, hw2a, if_pos rfl]
      · rw [content_eq_some, hw3, set_node, if_pos rfl]
    · rw [hex] at hno2
      simp at hno2

/-- C4, as the code has it: a write whose underlying write succeeds and after
which the size check succeeds and sees a size below the limit does not rotate:
it returns the length of the data and no error, the writer is unchanged, the
active file holds its old bytes followed by the data (so it did not shrink),
no other path is touched, and the only calls made are the write and the size
check. -/
theorem Write_below_limit (f : RollingLogFile) (data : List Byte) (w w1 w2 : World) (n : Nat)
    (size : Int) (hname : f.fileHandle.name = f.Path)
    (hwrite : f.fileHandle.Write data w = ((n, none), w1))
    (hstat : getFileSizeBytes f.Path w1 = ((size, none), w2))
    (hlt : size < f.maxSizeBytes) :
    Write f data w = .ok ((data.length, none), f, w2) ∧
      (∃ old, w.content f.Path = some old ∧ w2.content f.Path = some (old ++ data) ∧
        old.length ≤ (old ++ data).length ∧ size = ((old ++ data).length : Int)) ∧
      (∀ p, p ≠ f.Path → w2.node p = w.node p) ∧
      w2.trace = w.trace ++ [.write f.Path data.length, .stat f.Path] := by
  obtain ⟨-, hn, old, hnode, hw1⟩ := File_Write_ok hwrite
  obtain ⟨hw2, hsz⟩ := getFileSizeBytes_ok hstat
  rw [hname] at hnode hw1
  have hn1 : w1.node f.Path = some (.file (old ++ data)) := by
    rw [hw1, set_node, if_pos rfl]
  refine ⟨?_, ⟨old, content_eq_some.mpr hnode, ?_, by simp, hsz _ hn1⟩, fun p hp => ?_, ?_⟩
  · unfold Write
    rw [hwrite]
    simp only
    rw [hstat]
    simp only
    rw [if_neg (not_le.mpr hlt), hn]
  · rw [content_eq_some, hw2, log_node, hn1]
  · rw [hw2, log_node, hw1, set_node, if_neg hp, log_node]
  · rw [hw2, log_trace, hw1, set_trace, log_trace]
    simp

/-- C5, as the code has it: when the underlying write succeeds and the
rotation it triggers returns an error, `Write` returns that error together
with a byte count of zero, whatever number of bytes was accepted. -/
theorem Write_rotation_error (f f1 : RollingLogFile) (data : List Byte) (w w1 w2 w3 : World)
    (n : Nat) (size : Int) (err : GoError)
    (hwrite : f.fileHandle.Write data w = ((n, none), w1))
    (hstat : getFileSizeBytes f.Path w1 = ((size, none), w2))
    (hge : f.maxSizeBytes ≤ size)
    (hrot : rotate f w2 = .ok (some err, f1, w3)) :
    Write f data w = .ok ((0, some err), f1, w3) ∧ n = data.length := by
  refine ⟨?_, (File_Write_ok hwrite).2.1⟩
  unfold Write
  rw [hwrite]
  simp only
  rw [hstat]
  simp only
  rw [if_pos (ge_iff_le.mpr hge), hrot]

/-- C6, as the code has it: when the underlying write fails, `Write` returns
its error together with the byte count the underlying write reports (less than
the length of the data, not always zero); the writer is unchanged, no path but
the active file is touched, and no call is made after the write (no size
check, no rotation). -/
theorem Write_underlying_error (f : RollingLogFile) (data : List Byte) (w w1 : World) (n : Nat)
    (err : GoError) (hwrite : f.fileHandle.Write data w = ((n, some err), w1)) :
    Write f data w = .ok ((n, some err), f, w1) ∧
      (data = [] → n = 0) ∧ (data ≠ [] → n < data.length) ∧
      (∀ p, p ≠ f.fileHandle.name → w1.node p = w.node p) ∧
      (w1.trace = w.trace ∨ w1.trace = w.trace ++ [.write f.fileHandle.name data.length]) := by
  obtain ⟨h1, -, h3, h4, h5⟩ := File_Write_error hwrite
  refine ⟨?_, h4, h5, h1, h3⟩
  unfold Write
  rw [hwrite]

/-- C8: with a mode other than the two recognised ones `NewRollingFile` returns
an error and no writer and leaves the world as it was: no call is made. -/
theorem NewRollingFile_unrecognized_mode {F : Type} (conv : F → Int) (dir name : String)
    (mode : Int) (maxSizeMb : F) (backups : Int) (w : World)
    (hw : mode ≠ ('w'.toNat : Int)) (ha : mode ≠ ('a'.toNat : Int)) :
    NewRollingFile conv dir name mode maxSizeMb backups w = (.error (.badMode mode), w) := by
  unfold NewRollingFile
  simp only
  rw [if_neg hw, if_neg ha]

/-- C7, as the code has it: `NewRollingFile` does not look at the name; it
returns a writer exactly when the mode is one of the two recognised ones and
the open of the joined path succeeds, for names without a `.` as for others. -/
theorem NewRollingFile_ok_iff {F : Type} (conv : F → Int) (dir name : String)
    (mode : Int) (maxSizeMb : F) (backups : Int) (w : World) :
    (∃ f, (NewRollingFile conv dir name mode maxSizeMb backups w).1 = .ok f) ↔
      (mode = ('w'.toNat : Int) ∧ ∃ h, (osCreate (filepathJoin dir name) w).1 = .ok h) ∨
      (mode = ('a'.toNat : Int) ∧ ∃ h, (osOpenFile (filepathJoin dir name) w).1 = .ok h) := by
  unfold NewRollingFile
  simp only
  by_cases hw : mode = ('w'.toNat : Int)
  · have hna : ¬ mode = ('a'.toNat : Int) := by rw [hw]; decide
    rw [if_pos hw]
    simp only [hw, true_and, hna, false_and, or_false]
    rcases hc : osCreate (filepathJoin dir name) w with ⟨r, w1⟩
    cases r <;> simp
  · rw [if_neg hw]
    by_cases ha : mode = ('a'.toNat : Int)
    · rw [if_pos ha]
      simp only [hw, false_and, false_or, ha, true_and]
      rcases hc : osOpenFile (filepathJoin dir name) w with ⟨r, w1⟩
      cases r <;> simp
    · rw [if_neg ha]
      constructor
      · rintro ⟨f, hf⟩
        simp at hf
      · rintro (⟨h, -⟩ | ⟨h, -⟩)
        · exact absurd h hw
        · exact absurd h ha

/-- C9: in a rotation that returns without error while backup 1 exists, every
backup `i` from 1 to `backupCount - 1` whose source (the active file for
`i = 1`, backup `i - 1` otherwise) was a regular file before the rotation ends
with the bytes that source had before the rotation, and every such backup
whose source was no regular file keeps the node it had, absent or not. -/
theorem rotate_cascade (f f1 : RollingLogFile) (w w3 : World) (hwf : f.WellFormed)
    (hdot : OneDot f.FileName) (hex : w.isFile (f.backupPath 1) = true)
    (hrot : rotate f w = .ok (none, f1, w3)) (i : Nat) (h1 : 1 ≤ i)
    (h2 : (i : Int) ≤ f.backupCount - 1) :
    (w.isFile (f.sourcePath i) = true →
        w3.content (f.backupPath i) = w.content (f.sourcePath i)) ∧
      (w.isFile (f.sourcePath i) = false →
        w3.node (f.backupPath i) = w.node (f.backupPath i)) := by
  obtain ⟨hP, -, hlo, hhi⟩ := hwf
  obtain ⟨w1, w2, hn1, -, hbr, hw3, -⟩ := rotate_ok_inv hrot
  rcases hbr with ⟨hno, -⟩ | ⟨-, hcas⟩
  · rw [hex] at hno
    simp at hno
  · rw [wrapInt_pred hlo hhi] at hcas
    have hD : ∀ i j, 1 ≤ i → i < j → f.backupPath i ≠ f.backupPath j := by
      intro i j _ hij heq
      have := backupPath_injective f heq
      omega
    have hA : ∀ i, 1 ≤ i → f.backupPath i ≠ f.Path :=
      fun i _ => backupPath_ne_Path f hP hdot i
    obtain ⟨hs1, hs2⟩ := cascade_spec f hP hD hA _ hcas i h1 (by omega)
    have hb : w3.node (f.backupPath i) = w2.node (f.backupPath i) := by
      rw [hw3, set_node, if_neg (hA i h1), log_node]
    rw [hn1] at hs1 hs2
    refine ⟨fun hsrc => ?_, fun hsrc => ?_⟩
    · obtain ⟨d, hd⟩ := isFile_eq_true.mp hsrc
      rw [content_eq_some.mpr hd, content_eq_some, hb]
      exact hs1 d hd
    · rw [hb]
      exact hs2 (by rw [← hsrc]; exact isFile_congr (by rw [hn1]))

/-- C10: a rotation that returns without error empties the active file and
changes no path other than the active file, backup 1 when backup 1 was no
regular file before, and backups 1 to `backupCount - 1` when it was.  For a
name with exactly one `.`: with a backup count of 2 or more the backup of that
number keeps its node; and with a backup count of 1 or less and backup 1
present, every path but the active file keeps its node, all backups among
them, so the bytes the active file held are in no file the rotation wrote. -/
theorem rotate_frame (f f1 : RollingLogFile) (w w3 : World) (hwf : f.WellFormed)
    (hrot : rotate f w = .ok (none, f1, w3)) :
    w3.content f.Path = some [] ∧
      (∀ q, w3.node q ≠ w.node q →
        q = f.Path ∨ (w.isFile (f.backupPath 1) = false ∧ q = f.backupPath 1) ∨
          (w.isFile (f.backupPath 1) = true ∧
            ∃ i : Nat, 1 ≤ i ∧ (i : Int) ≤ f.backupCount - 1 ∧ q = f.backupPath i)) ∧
      (OneDot f.FileName → 2 ≤ f.backupCount →
        w3.node (f.backupPath f.backupCount.toNat) =
          w.node (f.backupPath f.backupCount.toNat)) ∧
      (f.backupCount ≤ 1 → w.isFile (f.backupPath 1) = true →
        (∀ q, q ≠ f.Path → w3.node q = w.node q) ∧
          (OneDot f.FileName → ∀ n, w3.node (f.backupPath n) = w.node (f.backupPath n))) := by
  obtain ⟨hP, -, hlo, hhi⟩ := hwf
  obtain ⟨hact, -, -, hfr⟩ := rotate_untouched hrot
  rw [wrapInt_pred hlo hhi] at hfr
  have hchanged : ∀ q, w3.node q ≠ w.node q →
      q = f.Path ∨ (w.isFile (f.backupPath 1) = false ∧ q = f.backupPath 1) ∨
        (w.isFile (f.backupPath 1) = true ∧
          ∃ i : Nat, 1 ≤ i ∧ (i : Int) ≤ f.backupCount - 1 ∧ q = f.backupPath i) := by
    intro q hq
    by_contra hcon
    simp only [not_or, not_and, not_exists] at hcon
    obtain ⟨hqP, hq1, hqi⟩ := hcon
    obtain ⟨hfirst, hsteady⟩ := hfr q hqP
    cases hb : w.isFile (f.backupPath 1)
    · exact hq (hfirst hb (hq1 hb))
    · exact hq (hsteady hb (fun i hi hiM => hqi hb i hi (by omega)))
  refine ⟨content_eq_some.mpr hact, hchanged, fun hdot hN => ?_, fun hN hex => ?_⟩
  · by_contra hcon
    rcases hchanged _ hcon with h | ⟨-, h⟩ | ⟨-, i, hi1, hi2, h⟩
    · exact backupPath_ne_Path f hP hdot _ h
    · have := backupPath_injective f h
      omega
    · have := backupPath_injective f h
      omega
  · have hall : ∀ q, q ≠ f.Path → w3.node q = w.node q := by
      intro q hq
      by_contra hcon
      rcases hchanged _ hcon with h | ⟨h, -⟩ | ⟨-, i, hi1, hi2, -⟩
      · exact hq h
      · rw [hex] at h
        simp at h
      · omega
    exact ⟨hall, fun hdot n => hall _ (backupPath_ne_Path f hP hdot n)⟩

/-- A write that returns without error keeps the writer well formed. -/
theorem Write_wellFormed {f f1 : RollingLogFile} {data : List Byte} {w w3 : World} {n : Nat}
    (hwf : f.WellFormed) (h : Write f data w = .ok ((n, none), f1, w3)) :
    f1.WellFormed ∧ f1.LogDir = f.LogDir ∧ f1.FileName = f.FileName ∧ f1.Path = f.Path ∧
      f1.backupCount = f.backupCount ∧ f1.maxSizeBytes = f.maxSizeBytes := by
  obtain ⟨-, old, w2, -, -, -, hbr⟩ := Write_ok_inv hwf.2.1 h
  rcases hbr with ⟨-, rfl, -⟩ | ⟨-, hrot⟩
  · exact ⟨hwf, rfl, rfl, rfl, rfl, rfl⟩
  · obtain ⟨-, -, hf1, -⟩ := rotate_untouched hrot
    subst hf1
    exact ⟨⟨hwf.1, rfl, hwf.2.2⟩, rfl, rfl, rfl, rfl, rfl⟩

/-- A writer made by `NewRollingFile` with a backup count in range is well formed. -/
theorem NewRollingFile_wellFormed {F : Type} (conv : F → Int) (dir name : String)
    (mode : Int) (maxSizeMb : F) (backups : Int) (w w1 : World) (f : RollingLogFile)
    (hlo : -(2 : Int) ^ 63 < backups) (hhi : backups < (2 : Int) ^ 63)
    (h : NewRollingFile conv dir name mode maxSizeMb backups w = (.ok f, w1)) :
    f.WellFormed := by
  unfold NewRollingFile at h
  simp only at h
  have hname : ∀ {p : String} {r : File} {wa : World},
      (osCreate p w = (.ok r, wa) ∨ osOpenFile p w = (.ok r, wa)) → r.name = p := by
    intro p r wa hor
    rcases hor with hc | ho
    · rw [(osCreate_ok hc).1]
    · unfold osOpenFile at ho
      split at ho
      · simp at ho
      · split at ho
        · simp at ho
        · simp only [Prod.mk.injEq, Except.ok.injEq] at ho
          rw [← ho.1]
        · simp only [Prod.mk.injEq, Except.ok.injEq] at ho
          rw [← ho.1]
  split at h
  · simp at h
  · simp at h
  · rename_i fhandle wa hopened
    simp only [Prod.mk.injEq, Except.ok.injEq] at h
    rw [← h.1]
    refine ⟨rfl, ?_, hlo, hhi⟩
    simp only
    split at hopened
    · simp only [Option.some.injEq] at hopened
      exact hname (Or.inl hopened)
    · split at hopened
      · simp only [Option.some.injEq] at hopened
        exact hname (Or.inr hopened)
      · simp at hopened

/-- What a write that returns without error leaves untouched: every path but
the active file, backup 1, and the backups the cascade runs over. -/
theorem Write_frame {f f1 : RollingLogFile} {data : List Byte} {w w3 : World} {n : Nat}
    (hwf : f.WellFormed) (h : Write f data w = .ok ((n, none), f1, w3)) :
    w.isFile f.Path = true ∧
      ∀ q, q ≠ f.Path → q ≠ f.backupPath 1 →
        (∀ i : Nat, 1 ≤ i → (i : Int) ≤ f.backupCount - 1 → q ≠ f.backupPath i) →
        w3.node q = w.node q := by
  obtain ⟨-, old, w2, hnode, -, hw2, hbr⟩ := Write_ok_inv hwf.2.1 h
  refine ⟨isFile_eq_true.mpr ⟨old, hnode⟩, fun q hq hq1 hqi => ?_⟩
  have hq2 : w2.node q = w.node q := by rw [hw2, if_neg hq]
  rcases hbr with ⟨-, -, rfl⟩ | ⟨-, hrot⟩
  · exact hq2
  · obtain ⟨-, -, -, hfr⟩ := rotate_untouched hrot
    rw [wrapInt_pred hwf.2.2.1 hwf.2.2.2] at hfr
    obtain ⟨hfirst, hsteady⟩ := hfr q hq
    cases hb : w2.isFile (f.backupPath 1)
    · rw [hfirst hb hq1, hq2]
    · rw [hsteady hb (fun i hi hiM => hqi i hi (by omega)), hq2]

/-- The count of rotations kept by `writeAll` is right: a write that returns
without error has rotated when the data brought the active file to the size
limit, and otherwise has kept its handle and touched no path but the active
file. -/
theorem Write_rotates_iff_crosses {f f1 : RollingLogFile} {data : List Byte} {w w3 : World}
    {n : Nat} (hname : f.fileHandle.name = f.Path)
    (h : Write f data w = .ok ((n, none), f1, w3)) :
    (crosses f data w = true → ∃ w2, rotate f w2 = .ok (none, f1, w3)) ∧
      (crosses f data w = false → f1 = f ∧ ∀ q, q ≠ f.Path → w3.node q = w.node q) := by
  obtain ⟨-, old, w2, hnode, -, hw2, hbr⟩ := Write_ok_inv hname h
  have hc : crosses f data w = decide (f.maxSizeBytes ≤ ((old ++ data).length : Int)) := by
    unfold crosses
    rw [content_eq_some.mpr hnode]
  rw [hc]
  rcases hbr with ⟨hlt, hf, hw⟩ | ⟨hge, hrot⟩
  · refine ⟨fun hx => ?_, fun _ => ⟨hf, fun q hq => ?_⟩⟩
    · simp only [decide_eq_true_eq] at hx
      omega
    · rw [hw, hw2, if_neg hq]
  · refine ⟨fun _ => ⟨w2, hrot⟩, fun hx => ?_⟩
    simp only [decide_eq_false_iff_not] at hx
    exact absurd hge hx

/-- Any number of writes that return without error leave no backup numbered 2
or more and at least the backup count, when there was none before. -/
theorem writeAll_no_high_backup (datas : List (List Byte)) :
    ∀ (f f1 : RollingLogFile) (w w1 : World) (k : Nat), f.WellFormed →
      (∀ n : Nat, 2 ≤ n → f.backupCount ≤ (n : Int) → w.isFile (f.backupPath n) = false) →
      writeAll f w datas = some (f1, w1, k) →
      ∀ n : Nat, 2 ≤ n → f.backupCount ≤ (n : Int) → w1.isFile (f.backupPath n) = false := by
  induction datas with
  | nil =>
    intro f f1 w w1 k _ hinv hrun
    simp only [writeAll, Option.some.injEq, Prod.mk.injEq] at hrun
    rw [← hrun.2.1]
    exact hinv
  | cons data rest ih =>
    intro f f1 w w1 k hwf hinv hrun
    unfold writeAll at hrun
    split at hrun
    · rename_i i fa wa hw
      obtain ⟨hwfa, hdir, hfile, -, hcount, -⟩ := Write_wellFormed hwf hw
      obtain ⟨hact, hfr⟩ := Write_frame hwf hw
      have hbp : ∀ n, fa.backupPath n = f.backupPath n := by
        intro n
        unfold RollingLogFile.backupPath
        rw [hdir, hfile]
      have hinva : ∀ n : Nat, 2 ≤ n → fa.backupCount ≤ (n : Int) →
          wa.isFile (fa.backupPath n) = false := by
        intro n hn2 hnN
        rw [hbp, ← hinv n hn2 (by rw [← hcount]; exact hnN)]
        refine isFile_congr (hfr _ ?_ ?_ ?_)
        · intro heq
          rw [← heq, hinv n hn2 (by rw [← hcount]; exact hnN)] at hact
          simp at hact
        · intro heq
          have := backupPath_injective f heq
          omega
        · intro i _ hi heq
          have := backupPath_injective f heq
          rw [hcount] at hnN
          omega
      split at hrun
      · rename_i f2 w2 k2 hrest
        simp only [Option.some.injEq, Prod.mk.injEq] at hrun
        intro n hn2 hnN
        have := ih fa f2 wa w2 k2 hwfa hinva hrest n hn2 (by rw [hcount]; exact hnN)
        rw [hbp, hrun.2.1] at this
        exact this
      · simp at hrun
    · simp at hrun

/-- C3, as the code has it: with a backup count of at least 1, starting from a
state without backup files, after any sequence of writes that return without
error (whatever the number of rotations) at most `backupCount` backup files
exist. -/
theorem backups_bounded (f f1 : RollingLogFile) (w w1 : World) (datas : List (List Byte))
    (k : Nat) (hwf : f.WellFormed) (hN : 1 ≤ f.backupCount)
    (hnone : ∀ n : Nat, 1 ≤ n → w.isFile (f.backupPath n) = false)
    (hrun : writeAll f w datas = some (f1, w1, k)) (l : List Nat) (hl : l.Nodup)
    (hfiles : ∀ n ∈ l, 1 ≤ n ∧ w1.isFile (f.backupPath n) = true) :
    (l.length : Int) ≤ f.backupCount := by
  have hinv := writeAll_no_high_backup datas f f1 w w1 k hwf
    (fun n hn _ => hnone n (by omega)) hrun
  have hsub : l.toFinset ⊆ Finset.Icc 1 f.backupCount.toNat := by
    intro n hn
    rw [List.mem_toFinset] at hn
    obtain ⟨h1, hfile⟩ := hfiles n hn
    rw [Finset.mem_Icc]
    refine ⟨h1, ?_⟩
    by_contra hcon
    have := hinv n (by omega) (by omega)
    rw [this] at hfile
    simp at hfile
  have hcard := Finset.card_le_card hsub
  rw [List.toFinset_card_of_nodup hl, Nat.card_Icc] at hcard
  omega

/-! ## The claims at concrete states -/

theorem appLog_wellFormed (n : Int) (h1 : -(2 : Int) ^ 63 < n) (h2 : n < (2 : Int) ^ 63) :
    (appLog n).WellFormed :=
  ⟨show "logs/app.log" = filepathJoin "logs" "app.log" by decide, rfl, h1, h2⟩

theorem oneDot_appLog (n : Int) : OneDot (appLog n).FileName :=
  show List.count '.' "app.log".data = 1 by decide

theorem freshWorld_no_backup (N : Int) (n : Nat) :
    freshWorld.isFile ((appLog N).backupPath n) = false := by
  have hne := backupPath_ne_Path (appLog N)
    (show "logs/app.log" = filepathJoin "logs" "app.log" by decide) (oneDot_appLog N) n
  rw [isFile_eq_false]
  intro d hd
  have hP : (appLog N).Path = "logs/app.log" := rfl
  rw [hP] at hne
  simp [freshWorld, emptyWorld, set_node, hne] at hd

/-- C1 at the scenario of the specification: the writer is constructed with
a backup count of 2, the four writes rotate twice and end with backup 1
holding the second 110 bytes and the active file empty, but backup 2 does not
exist. -/
theorem scenario_two_backups :
    ∃ f0 w0 f1 w1,
      NewRollingFile bytesOf "logs" "app.log" ('w'.toNat : Int) 100 2 emptyWorld = (.ok f0, w0) ∧
        f0 = appLog 2 ∧ f0.backupPath 1 = "logs/app_bkp_1.log" ∧
        f0.backupPath 2 = "logs/app_bkp_2.log" ∧ (∀ p, w0.isFile p = freshWorld.isFile p) ∧
        writeAll f0 w0 scenario = some (f1, w1, 2) ∧
        w1.node "logs/app_bkp_2.log" = none ∧
        w1.content "logs/app_bkp_1.log" = some (block 60 3 ++ block 50 4) ∧
        w1.content "logs/app.log" = some [] := by
  refine ⟨_, _, _, _, rfl, rfl, ?_, ?_, fun p => rfl, rfl, ?_, ?_, ?_⟩ <;> decide

/-- The same scenario with a backup count of 3 ends as the specification says. -/
theorem scenario_three_backups :
    ∃ f1 w1, writeAll (appLog 3) freshWorld scenario = some (f1, w1, 2) ∧
      w1.content "logs/app_bkp_2.log" = some (block 60 1 ++ block 50 2) ∧
      w1.content "logs/app_bkp_1.log" = some (block 60 3 ++ block 50 4) ∧
      w1.content "logs/app.log" = some [] := by
  refine ⟨_, _, rfl, ?_, ?_, ?_⟩ <;> decide

/-- C2 at a concrete state: 60 bytes in the active file, 50 more written, a
limit of 100 bytes and no backup yet. -/
theorem Write_first_rotation_witness :
    halfFull.isFile ((appLog 1).backupPath 1) = false ∧
      returned (Write (appLog 1) (block 50 2) halfFull) = some (50, none) ∧
      (stateOf (Write (appLog 1) (block 50 2) halfFull) (appLog 1) halfFull).2.content
          ((appLog 1).backupPath 1) = some (block 60 1 ++ block 50 2) ∧
      (stateOf (Write (appLog 1) (block 50 2) halfFull) (appLog 1) halfFull).2.content
          (appLog 1).Path = some [] :=
  have h := Write_first_rotation (appLog 1)
    (stateOf (Write (appLog 1) (block 50 2) halfFull) (appLog 1) halfFull).1
    (block 50 2) (block 60 1) halfFull
    (stateOf (Write (appLog 1) (block 50 2) halfFull) (appLog 1) halfFull).2 50
    rfl (by decide) (by decide) (by decide) rfl
  ⟨by decide, by decide, h.1, h.2.1⟩

/-- C3 fails for a backup count of 0: the rotations of the scenario still leave
a backup file, more files than the count allows. -/
theorem zero_backups_one_file :
    (∀ n : Nat, 1 ≤ n → freshWorld.isFile ((appLog 0).backupPath n) = false) ∧
      ∃ f1 w1 k, writeAll (appLog 0) freshWorld scenario = some (f1, w1, k) ∧
        (appLog 0).backupCount < (k : Int) ∧ w1.isFile ((appLog 0).backupPath 1) = true ∧
        ¬ ((([1] : List Nat).length : Int) ≤ (appLog 0).backupCount) := by
  refine ⟨fun n _ => freshWorld_no_backup 0 n, _, _, _, rfl, ?_, ?_, ?_⟩ <;> decide

/-- C3, as the code has it, at the scenario of the specification with a backup
count of 1: two rotations and one backup file. -/
theorem backups_bounded_witness :
    (1 : Int) ≤ (appLog 1).backupCount ∧
      (∃ f1 w1, writeAll (appLog 1) freshWorld scenario = some (f1, w1, 2) ∧
        w1.isFile ((appLog 1).backupPath 1) = true) ∧
      (([1] : List Nat).length : Int) ≤ (appLog 1).backupCount :=
  ⟨by decide, ⟨_, _, rfl, by decide⟩,
    backups_bounded (appLog 1) _ freshWorld _ scenario 2
      (appLog_wellFormed 1 (by decide) (by decide)) (by decide)
      (fun n _ => freshWorld_no_backup 1 n) rfl [1] (by decide)
      (by intro n hn; rw [List.mem_singleton] at hn; subst hn; decide)⟩

/-- C4 fails when the size check itself fails: the handle accepts all 60
bytes, the active file then holds 60 bytes under a limit of 100, no rotation
runs and no other path changes, yet `Write` returns the error of `os.Stat`
with a byte count of 0, not 60 and no error. -/
theorem size_check_error_returns_zero :
    ((appLog 2).fileHandle.Write (block 60 1) statDenied).1 = (60, none) ∧
      ((appLog 2).fileHandle.Write (block 60 1) statDenied).2.content (appLog 2).Path =
        some (block 60 1) ∧
      ((block 60 1).length : Int) < (appLog 2).maxSizeBytes ∧
      returned (Write (appLog 2) (block 60 1) statDenied) =
        some (0, some (.sys (.env .EACCES))) ∧
      (stateOf (Write (appLog 2) (block 60 1) statDenied) (appLog 2) statDenied).2.trace =
        [.write "logs/app.log" 60, .stat "logs/app.log"] := by
  refine ⟨?_, ?_, ?_, ?_, ?_⟩ <;> decide

/-- C4, as the code has it, at a concrete state: the first write of the
scenario, 60 bytes into an empty active file under a limit of 100 bytes. -/
theorem Write_below_limit_witness :
    Write (appLog 2) (block 60 1) freshWorld =
        .ok (((block 60 1).length, none), appLog 2,
          (getFileSizeBytes (appLog 2).Path
            ((appLog 2).fileHandle.Write (block 60 1) freshWorld).2).2) ∧
      (getFileSizeBytes (appLog 2).Path
          ((appLog 2).fileHandle.Write (block 60 1) freshWorld).2).2.content (appLog 2).Path =
        some ([] ++ block 60 1) :=
  have h := Write_below_limit (appLog 2) (block 60 1) freshWorld
    ((appLog 2).fileHandle.Write (block 60 1) freshWorld).2
    (getFileSizeBytes (appLog 2).Path
      ((appLog 2).fileHandle.Write (block 60 1) freshWorld).2).2 60 60 rfl rfl rfl (by decide)
  ⟨h.1, by decide⟩

/-- C5 fails when the path of backup 1 is taken by a directory: a write of 50
bytes that the handle accepts in full triggers a rotation that fails, and
`Write` returns the error with a byte count of 0, not 50. -/
theorem rotation_error_returns_zero :
    ∃ w1 w2 f1 w3 e, (appLog 2).fileHandle.Write (block 50 2) blockedWorld = ((50, none), w1) ∧
      getFileSizeBytes (appLog 2).Path w1 = ((110, none), w2) ∧
      rotate (appLog 2) w2 = .ok (some e, f1, w3) ∧
      Write (appLog 2) (block 50 2) blockedWorld = .ok ((0, some e), f1, w3) ∧
      (50 : Nat) ≠ 0 :=
  ⟨_, _, _, _, _, rfl, rfl, rfl, rfl, by decide⟩

/-- C5, as the code has it, at the world whose backup 1 is a directory. -/
theorem Write_rotation_error_witness :
    returned (Write (appLog 2) (block 50 2) blockedWorld) = some (0, some (.sys .EISDIR)) ∧
      (50 : Nat) = (block 50 2).length := by
  have h := Write_rotation_error (appLog 2) _ (block 50 2) blockedWorld _ _ _ 50 110
    (.sys .EISDIR) rfl rfl (by decide) rfl
  exact ⟨by rw [h.1]; rfl, h.2⟩

/-- C6 fails on a disk that fills up after 10 of the 50 bytes: the underlying
write fails and `Write` returns the error with a byte count of 10, not 0. -/
theorem failed_write_returns_count :
    ((appLog 2).fileHandle.Write (block 50 2) fullDisk).1 =
        (10, some (.sys (.env .ENOSPC))) ∧
      returned (Write (appLog 2) (block 50 2) fullDisk) =
        some (10, some (.sys (.env .ENOSPC))) ∧ (10 : Nat) ≠ 0 := by
  refine ⟨by decide, by decide, by decide⟩

/-- C6, as the code has it, on the disk that fills up. -/
theorem Write_underlying_error_witness :
    Write (appLog 2) (block 50 2) fullDisk =
      .ok ((10, some (.sys (.env .ENOSPC))), appLog 2,
        ((appLog 2).fileHandle.Write (block 50 2) fullDisk).2) :=
  (Write_underlying_error (appLog 2) (block 50 2) fullDisk
    ((appLog 2).fileHandle.Write (block 50 2) fullDisk).2 10 (.sys (.env .ENOSPC)) rfl).1

/-- C7 fails for the name `applog`: construction returns a writer, and the
first rotation of that writer indexes past the end of the split name. -/
theorem dotless_name_accepted :
    '.' ∉ "applog".data ∧
      (NewRollingFile bytesOf "logs" "applog" ('w'.toNat : Int) 100 2 emptyWorld).1 =
        .ok dotless ∧
      Write dotless (block 110 1)
          (NewRollingFile bytesOf "logs" "applog" ('w'.toNat : Int) 100 2 emptyWorld).2 =
        .error .indexOutOfRange :=
  ⟨by decide, rfl, rfl⟩

/-- C8 at the mode `x`. -/
theorem NewRollingFile_unrecognized_mode_witness :
    ('x'.toNat : Int) ≠ ('w'.toNat : Int) ∧ ('x'.toNat : Int) ≠ ('a'.toNat : Int) ∧
      NewRollingFile bytesOf "logs" "app.log" ('x'.toNat : Int) 100 2 freshWorld =
        (.error (.badMode ('x'.toNat : Int)), freshWorld) :=
  ⟨by decide, by decide,
    NewRollingFile_unrecognized_mode bytesOf "logs" "app.log" ('x'.toNat : Int) 100 2 freshWorld
      (by decide) (by decide)⟩

/-- C9 at a concrete state with a backup count of 3: backup 2 receives the
bytes backup 1 held before the rotation. -/
theorem rotate_cascade_witness :
    steadyWorld.isFile ((appLog 3).backupPath 1) = true ∧
      steadyWorld.isFile ((appLog 3).sourcePath 2) = true ∧
      (rotated (appLog 3) steadyWorld).2.content ((appLog 3).backupPath 2) =
        steadyWorld.content ((appLog 3).sourcePath 2) :=
  ⟨by decide, by decide,
    (rotate_cascade (appLog 3) (rotated (appLog 3) steadyWorld).1 steadyWorld
      (rotated (appLog 3) steadyWorld).2 (appLog_wellFormed 3 (by decide) (by decide))
      (oneDot_appLog 3) (by decide) rfl 2 (by decide) (by decide)).1 (by decide)⟩

/-- C10 at a concrete state with a backup count of 1 and backup 1 present:
the rotation empties the active file and leaves every backup as it was. -/
theorem rotate_frame_witness :
    (rotated (appLog 1) steadyWorld).2.content (appLog 1).Path = some [] ∧
      ∀ n, (rotated (appLog 1) steadyWorld).2.node ((appLog 1).backupPath n) =
        steadyWorld.node ((appLog 1).backupPath n) :=
  have h := rotate_frame (appLog 1) (rotated (appLog 1) steadyWorld).1 steadyWorld
    (rotated (appLog 1) steadyWorld).2 (appLog_wellFormed 1 (by decide) (by decide)) rfl
  ⟨h.1, (h.2.2.2 (by decide) (by decide)).2 (oneDot_appLog 1)⟩

end gorollinglog
